import Mathlib

/-!
Chef's menu (`src/App.js`)

A shallow embedding of the list operations and of the price aggregation of the
React Native application in `src/App.js`, followed by the properties claimed
for them.

* `MenuItem`, `ManageState`, `addMenuItem`, `removeMenuItem`: the state and the
  two handlers of `ManageMenuScreen`.  React state is passed explicitly; the
  value of `Math.random().toString()` is an argument of `addMenuItem`; the call
  of `alert` is returned as an optional message.
* `FilterState`, `filteredItems`: the state and the derived list of
  `FilterMenuScreen`.
* `F64`, `parseFloat`, `toFixed`: the JavaScript Number operations that
  `calculateAveragePrice` uses, following ECMA-262 over exact integer
  arithmetic (binary64, round to nearest, ties to even).
* `priceCents`, `totalCents`, `renderTwoDecimals`, `isBlankText`: the notions in
  which the specification states the expected results.
-/

namespace ChefsMenu

/-! ## Data model -/

/-- A menu item as built in `addMenuItem` (`src/App.js`, lines 71-77): five
string fields; `price` holds the text typed by the user. -/
structure MenuItem where
  id : String
  dishName : String
  description : String
  course : String
  price : String
  deriving DecidableEq, Repr

/-- The React state of `ManageMenuScreen` (`src/App.js`, lines 61-65). -/
structure ManageState where
  dishName : String
  description : String
  course : String
  price : String
  menuItems : List MenuItem
  deriving DecidableEq, Repr

/-- The initial state of `ManageMenuScreen`: empty text fields, course
`'Starters'`, and `route.params?.menuItems || []` as the store. -/
def ManageState.init (params : Option (List MenuItem)) : ManageState :=
  { dishName := "", description := "", course := "Starters", price := "",
    menuItems := params.getD [] }

/-- JavaScript truthiness of a string: every string but the empty one. -/
def truthy (s : String) : Bool := s != ""

/-- The handler `addMenuItem` (`src/App.js`, lines 69-85).  `randomId` is the
value of `Math.random().toString()` at the call.  The result is the next state
and the message passed to `alert`, if any. -/
def addMenuItem (s : ManageState) (randomId : String) : ManageState × Option String :=
  if truthy s.dishName && truthy s.description && truthy s.price then
    let newItem : MenuItem :=
      { id := randomId, dishName := s.dishName, description := s.description,
        course := s.course, price := s.price }
    ({ s with menuItems := s.menuItems ++ [newItem], dishName := "", description := "",
              price := "" }, none)
  else
    (s, some "Please fill all fields.")

/-- The handler `removeMenuItem` (`src/App.js`, lines 87-90). -/
def removeMenuItem (s : ManageState) (id : String) : ManageState :=
  let updatedMenuItems := s.menuItems.filter (fun item => item.id != id)
  { s with menuItems := updatedMenuItems }

/-- The user interactions with `ManageMenuScreen`: typing in one of the three
text inputs, choosing a course in the picker, pressing "Add Menu Item" (with the
value that `Math.random().toString()` yields at that press) and pressing
"Remove" on the item with a given id. -/
inductive Event where
  | setDishName (text : String)
  | setDescription (text : String)
  | setCourse (value : String)
  | setPrice (text : String)
  | pressAdd (randomId : String)
  | pressRemove (id : String)
  deriving DecidableEq, Repr

/-- Whether the event is a choice in the course picker. -/
def Event.isSetCourse : Event → Bool
  | .setCourse _ => true
  | _ => false

/-- The state of `ManageMenuScreen` after one interaction. -/
def step (s : ManageState) : Event → ManageState
  | .setDishName text => { s with dishName := text }
  | .setDescription text => { s with description := text }
  | .setCourse value => { s with course := value }
  | .setPrice text => { s with price := text }
  | .pressAdd randomId => (addMenuItem s randomId).1
  | .pressRemove id => removeMenuItem s id

/-- The state of `ManageMenuScreen` after a sequence of interactions. -/
def run (s : ManageState) (events : List Event) : ManageState :=
  events.foldl step s

/-- Whether every press of "Add Menu Item" in `events`, played from `s`, draws
an id that no item of the store carries at that moment. -/
def freshDraws : ManageState → List Event → Bool
  | _, [] => true
  | s, .pressAdd randomId :: rest =>
      !(s.menuItems.map MenuItem.id).contains randomId && freshDraws (step s (.pressAdd randomId)) rest
  | s, e :: rest => freshDraws (step s e) rest

/-- The React state of `FilterMenuScreen` (`src/App.js`, lines 128-129). -/
structure FilterState where
  menuItems : List MenuItem
  selectedCourse : String
  deriving DecidableEq, Repr

/-- The initial state of `FilterMenuScreen`. -/
def FilterState.init (params : Option (List MenuItem)) : FilterState :=
  { menuItems := params.getD [], selectedCourse := "Starters" }

/-- A choice in the course picker of `FilterMenuScreen`. -/
def setSelectedCourse (s : FilterState) (value : String) : FilterState :=
  { s with selectedCourse := value }

/-- The list `filteredItems` shown by `FilterMenuScreen` (`src/App.js`, line 131). -/
def filteredItems (s : FilterState) : List MenuItem :=
  s.menuItems.filter (fun item => item.course == s.selectedCourse)

/-! ## JavaScript Numbers -/

/-- A JavaScript Number: an IEEE-754 binary64 value.  The finite value
`fin neg m e` is `(-1)^neg * m * 2^e`; the values that the operations below
produce are canonical: a zero is `fin neg 0 0`, and otherwise `0 < m < 2^53`,
`-1074 ≤ e ≤ 971`, and `2^52 ≤ m` unless `e = -1074`. -/
inductive F64 where
  | nan : F64
  | inf (neg : Bool) : F64
  | fin (neg : Bool) (m : Nat) (e : Int) : F64
  deriving DecidableEq, Repr

/-- The Number `+0`. -/
def F64.zero : F64 := .fin false 0 0

/-- Worker of `floorLog2`: halve until below two, at most `fuel` times. -/
def floorLog2Aux : Nat → Nat → Nat
  | 0, _ => 0
  | fuel + 1, n => if n < 2 then 0 else floorLog2Aux fuel (n / 2) + 1

/-- The integer `⌊log2 n⌋` for positive `n` (and `0` for `n = 0`). -/
def floorLog2 (n : Nat) : Nat := floorLog2Aux n n

/-- The integer `⌊log2 (num / den)⌋` for positive `num` and `den`. -/
def floorLog2Ratio (num den : Nat) : Int :=
  let t : Int := (floorLog2 num : Int) - (floorLog2 den : Int)
  if den * 2 ^ t.toNat ≤ num * 2 ^ (-t).toNat then t else t - 1

/-- The integer nearest to `n / d` (`d > 0`), the even one of the two when
`n / d` lies half-way between two integers. -/
def roundHalfEven (n d : Nat) : Nat :=
  let q := n / d
  let r := n % d
  if d < 2 * r ∨ (2 * r = d ∧ q % 2 = 1) then q + 1 else q

/-- Round the non-negative rational `num / den` (`den > 0`) to the nearest
binary64 value, ties to even, overflowing to infinity; `neg` is the sign of the
result.  This is the rounding that every Number operation applies to its exact
result. -/
def roundNearestEven (neg : Bool) (num den : Nat) : F64 :=
  if num = 0 then .fin neg 0 0 else
  let e : Int := max (floorLog2Ratio num den - 52) (-1074)
  let m := roundHalfEven (num * 2 ^ (-e).toNat) (den * 2 ^ e.toNat)
  let m1 := if m = 2 ^ 53 then 2 ^ 52 else m
  let e1 := if m = 2 ^ 53 then e + 1 else e
  if 971 < e1 then .inf neg else if m1 = 0 then .fin neg 0 0 else .fin neg m1 e1

/-- The signed integer `(-1)^neg * m`. -/
def signed (neg : Bool) (m : Nat) : Int := if neg then -(m : Int) else (m : Int)

/-- Number addition `x + y` (ECMA-262, Number::add). -/
def F64.add : F64 → F64 → F64
  | .nan, _ => .nan
  | .inf _, .nan => .nan
  | .inf a, .inf b => if a = b then .inf a else .nan
  | .inf a, .fin _ _ _ => .inf a
  | .fin _ _ _, .nan => .nan
  | .fin _ _ _, .inf b => .inf b
  | .fin sa ma ea, .fin sb mb eb =>
    let e := min ea eb
    let s : Int := signed sa (ma * 2 ^ (ea - e).toNat) + signed sb (mb * 2 ^ (eb - e).toNat)
    if s = 0 then .fin (sa && sb) 0 0
    else roundNearestEven (decide (s < 0)) (s.natAbs * 2 ^ e.toNat) (2 ^ (-e).toNat)

/-- Number division `x / y` (ECMA-262, Number::divide). -/
def F64.div : F64 → F64 → F64
  | .nan, _ => .nan
  | .inf _, .nan => .nan
  | .inf _, .inf _ => .nan
  | .inf a, .fin b _ _ => .inf (xor a b)
  | .fin _ _ _, .nan => .nan
  | .fin a _ _, .inf b => .fin (xor a b) 0 0
  | .fin sa ma ea, .fin sb mb eb =>
    if mb = 0 then (if ma = 0 then .nan else .inf (xor sa sb))
    else roundNearestEven (xor sa sb) (ma * 2 ^ (ea - eb).toNat) (mb * 2 ^ (eb - ea).toNat)

/-- The Number for a non-negative integer, such as the `length` of an array. -/
def F64.ofNat (n : Nat) : F64 := roundNearestEven false n 1

/-- The code points of WhiteSpace and LineTerminator, which `parseFloat` skips
at the start of its argument. -/
def isWhiteSpace (c : Char) : Bool :=
  let n := c.toNat
  n == 9 || n == 10 || n == 11 || n == 12 || n == 13 || n == 32 || n == 160 ||
  n == 0x1680 || (0x2000 ≤ n && n ≤ 0x200A) || n == 0x2028 || n == 0x2029 ||
  n == 0x202F || n == 0x205F || n == 0x3000 || n == 0xFEFF

/-- The number written by a sequence of decimal digits. -/
def digitsValue (ds : List Char) : Nat :=
  ds.foldl (fun acc c => 10 * acc + (c.toNat - 48)) 0

/-- The value of the ExponentPart at the start of `rest`, and `0` when `rest`
does not start with one. -/
def parseExponent (rest : List Char) : Int :=
  match rest with
  | [] => 0
  | c :: rest1 =>
    if c = 'e' ∨ c = 'E' then
      match rest1 with
      | '+' :: rest2 => (digitsValue (rest2.takeWhile Char.isDigit) : Int)
      | '-' :: rest2 => -(digitsValue (rest2.takeWhile Char.isDigit) : Int)
      | _ => (digitsValue (rest1.takeWhile Char.isDigit) : Int)
    else 0

/-- The Number nearest to `(-1)^neg * mantissa * 10^exponent`. -/
def decimalToF64 (neg : Bool) (mantissa : Nat) (exponent : Int) : F64 :=
  if 0 ≤ exponent then roundNearestEven neg (mantissa * 10 ^ exponent.toNat) 1
  else roundNearestEven neg mantissa (10 ^ (-exponent).toNat)

/-- The value of the longest StrUnsignedDecimalLiteral that starts `cs`
(`Infinity`, or digits with an optional fraction and exponent), with sign `neg`;
`NaN` when there is none. -/
def parseUnsigned (neg : Bool) (cs : List Char) : F64 :=
  if cs.take 8 = ['I', 'n', 'f', 'i', 'n', 'i', 't', 'y'] then .inf neg else
  let intDigits := cs.takeWhile Char.isDigit
  let rest1 := cs.dropWhile Char.isDigit
  match rest1 with
  | '.' :: rest2 =>
    let fracDigits := rest2.takeWhile Char.isDigit
    let rest3 := rest2.dropWhile Char.isDigit
    if intDigits = [] ∧ fracDigits = [] then .nan
    else decimalToF64 neg (digitsValue (intDigits ++ fracDigits))
           (parseExponent rest3 - (fracDigits.length : Int))
  | _ =>
    if intDigits = [] then .nan
    else decimalToF64 neg (digitsValue intDigits) (parseExponent rest1)

/-- The global function `parseFloat` (ECMA-262, 19.2.4) on a string: skip
leading white space, take the longest initial part that is a StrDecimalLiteral
and return the Number nearest to its value (the correctly rounded value, as
engines compute it), or `NaN` when no initial part is one. -/
def parseFloat (s : String) : F64 :=
  match s.toList.dropWhile isWhiteSpace with
  | '+' :: cs => parseUnsigned false cs
  | '-' :: cs => parseUnsigned true cs
  | cs => parseUnsigned false cs

/-- Worker of `shortestDigits`: try `k`, `k + 1`, ... significant digits, at
most `fuel` times.  `x` is the integer to print, `d` the number of its decimal
digits, `target` its Number.  The result is the digit string `s` and the
exponent `n` of ECMA-262, Number::toString, step 5. -/
def shortestDigitsAux (x d : Nat) (target : F64) : Nat → Nat → Nat × Nat
  | 0, _ => (x, d)
  | fuel + 1, k =>
    let p := 10 ^ (d - k)
    let lo := x / p
    let hi := lo + 1
    let okLo := decide (lo ≠ 0 ∧ roundNearestEven false (lo * p) 1 = target)
    let okHi := decide (roundNearestEven false (hi * p) 1 = target)
    let pick : Option Nat :=
      if okLo && okHi then
        (if x - lo * p < hi * p - x then some lo
         else if hi * p - x < x - lo * p then some hi
         else if lo % 2 = 0 then some lo else some hi)
      else if okLo then some lo
      else if okHi then some hi
      else none
    match pick with
    | some s => if s = 10 ^ k then (1, d + 1) else (s, d)
    | none => shortestDigitsAux x d target fuel (k + 1)

/-- The Number-to-string conversion (ECMA-262, Number::toString, radix 10) of
a finite Number whose value is the integer `x ≥ 10^21`: the shortest digit
string that reads back as the same Number, in exponential form. -/
def numberToStringLarge (x : Nat) : List Char :=
  let d := (Nat.toDigits 10 x).length
  let sn := shortestDigitsAux x d (roundNearestEven false x 1) 17 1
  let digits := Nat.toDigits 10 sn.1
  let expo := ['e', '+'] ++ Nat.toDigits 10 (sn.2 - 1)
  match digits with
  | [] => expo
  | [c] => c :: expo
  | c :: cs => c :: '.' :: cs ++ expo

/-- The method `Number.prototype.toFixed` (ECMA-262, 21.1.3.3) with
`fractionDigits = f`. -/
def toFixed (x : F64) (f : Nat) : String :=
  match x with
  | .nan => "NaN"
  | .inf neg => if neg then "-Infinity" else "Infinity"
  | .fin neg m e =>
    let s : List Char := if neg ∧ m ≠ 0 then ['-'] else []
    let num := m * 2 ^ e.toNat
    let den := 2 ^ (-e).toNat
    if 10 ^ 21 * den ≤ num then String.mk (s ++ numberToStringLarge (num / den))
    else
      let n := (2 * num * 10 ^ f + den) / (2 * den)
      let digits := Nat.toDigits 10 n
      if f ≠ 0 then
        let k := digits.length
        let padded := if k ≤ f then List.replicate (f + 1 - k) '0' ++ digits else digits
        let k1 := if k ≤ f then f + 1 else k
        String.mk (s ++ padded.take (k1 - f) ++ ['.'] ++ padded.drop (k1 - f))
      else String.mk (s ++ digits)

/-! ## The aggregation -/

/-- The values that `calculateAveragePrice` returns: a Number or a String. -/
inductive JSValue where
  | num (x : F64)
  | str (s : String)
  deriving DecidableEq, Repr

/-- The function `calculateAveragePrice` (`src/App.js`, lines 10-14), together
with the divisors of the divisions that its evaluation performs, in order. -/
def calculateAveragePriceTraced (menuItems : List MenuItem) (course : String) :
    JSValue × List Nat :=
  let itemsByCourse := menuItems.filter (fun item => item.course == course)
  let total := itemsByCourse.foldl (fun sum item => F64.add sum (parseFloat item.price)) (F64.ofNat 0)
  if itemsByCourse.length ≠ 0 then
    (.str (toFixed (F64.div total (F64.ofNat itemsByCourse.length)) 2), [itemsByCourse.length])
  else
    (.num (F64.ofNat 0), [])

/-- The function `calculateAveragePrice` (`src/App.js`, lines 10-14). -/
def calculateAveragePrice (menuItems : List MenuItem) (course : String) : JSValue :=
  (calculateAveragePriceTraced menuItems course).1

/-! ## Notions of the specification -/

/-- The specification's "empty or blank" text: a text with no character other
than white space. -/
def isBlankText (s : String) : Bool := s.toList.all isWhiteSpace

/-- The rational value of a finite Number (and `0` for `NaN` and the
infinities). -/
def F64.toRat : F64 → ℚ
  | .fin neg m e => (if neg then -1 else 1) * (m : ℚ) * (2 : ℚ) ^ e
  | _ => 0

/-- The unit roundoff `2^-53` of binary64 arithmetic. -/
def unitRoundoff : ℚ := 1 / 2 ^ 53

/-- The Number `x` is finite and not negative, and its value is `v` up to `k`
roundings: it lies between `v * (1 - 2^-53)^k` and `v * (1 + 2^-53)^k`. -/
def Approx (x : F64) (v : ℚ) (k : Nat) : Prop :=
  ∃ m e, x = .fin false m e ∧
    v * (1 - unitRoundoff) ^ k ≤ (m : ℚ) * (2 : ℚ) ^ e ∧
    (m : ℚ) * (2 : ℚ) ^ e ≤ v * (1 + unitRoundoff) ^ k

/-- The amount in cents written by a price text that is a decimal with at most
two fraction digits (`25`, `25.5`, `25.00`), and `none` for every other text. -/
def priceCents (s : String) : Option Nat :=
  let cs := s.toList
  let intDigits := cs.takeWhile Char.isDigit
  match cs.dropWhile Char.isDigit with
  | [] => if intDigits = [] then none else some (100 * digitsValue intDigits)
  | ['.', a] =>
    if intDigits ≠ [] ∧ a.isDigit = true then
      some (100 * digitsValue intDigits + 10 * (a.toNat - 48))
    else none
  | ['.', a, b] =>
    if intDigits ≠ [] ∧ a.isDigit = true ∧ b.isDigit = true then
      some (100 * digitsValue intDigits + 10 * (a.toNat - 48) + (b.toNat - 48))
    else none
  | _ => none

/-- The items of course `course`, in the order of the list. -/
def itemsOfCourse (menuItems : List MenuItem) (course : String) : List MenuItem :=
  menuItems.filter (fun item => item.course == course)

/-- The sum, in cents, of the prices of the items of course `course` (a price
text that is not a decimal with at most two fraction digits counts as zero). -/
def totalCents (menuItems : List MenuItem) (course : String) : Nat :=
  ((itemsOfCourse menuItems course).map (fun item => (priceCents item.price).getD 0)).sum

/-- The text of the amount of `cents` cents with exactly two decimals:
`renderTwoDecimals 1500 = "15.00"`. -/
def renderTwoDecimals (cents : Nat) : String :=
  String.mk (Nat.toDigits 10 (cents / 100) ++
    ['.', Nat.digitChar (cents / 10 % 10), Nat.digitChar (cents % 10)])

end ChefsMenu

namespace ChefsMenu

/-! ## Properties of the store operations -/

theorem truthy_iff (s : String) : truthy s = true ↔ s ≠ "" := by
  simp [truthy]

theorem addMenuItem_of_filled (s : ManageState) (randomId : String)
    (h1 : s.dishName ≠ "") (h2 : s.description ≠ "") (h3 : s.price ≠ "") :
    addMenuItem s randomId =
      ({ s with
          menuItems := s.menuItems ++
            [{ id := randomId, dishName := s.dishName, description := s.description,
               course := s.course, price := s.price }],
          dishName := "", description := "", price := "" }, none) := by
  simp [addMenuItem, truthy, h1, h2, h3]

theorem filter_ne_append_fresh (items : List MenuItem) (x : MenuItem)
    (h : ∀ y ∈ items, y.id ≠ x.id) :
    (items ++ [x]).filter (fun item => item.id != x.id) = items := by
  rw [List.filter_append]
  have h1 : items.filter (fun item => item.id != x.id) = items := by
    apply List.filter_eq_self.2
    intro y hy
    simpa using h y hy
  simp [h1]

/-- C5. Filtering by course returns exactly the items of the store whose course
is the selected one (same members, same multiplicities), as a subsequence of
the store in the original order; choosing a course does not change the store;
the empty store (also an absent navigation parameter) gives the empty list. -/
theorem filteredItems_spec (s : FilterState) (c : String) :
    (∀ x, x ∈ filteredItems (setSelectedCourse s c) ↔ x ∈ s.menuItems ∧ x.course = c) ∧
    (∀ x, x.course = c →
      (filteredItems (setSelectedCourse s c)).count x = s.menuItems.count x) ∧
    (filteredItems (setSelectedCourse s c)).Sublist s.menuItems ∧
    (setSelectedCourse s c).menuItems = s.menuItems ∧
    filteredItems (setSelectedCourse (FilterState.init (some [])) c) = [] ∧
    filteredItems (setSelectedCourse (FilterState.init none) c) = [] := by
  refine ⟨?_, ?_, ?_, rfl, rfl, rfl⟩
  · intro x
    simp [filteredItems, setSelectedCourse, List.mem_filter]
  · intro x hx
    simp only [filteredItems, setSelectedCourse]
    rw [List.count_filter]
    simpa using hx
  · exact List.filter_sublist _

/-- C6. After `removeMenuItem(id)` no item of the store has that id, and the
store consists of exactly the items whose id differs from it (same members,
same multiplicities), as a subsequence of the previous store: order and fields
are kept. -/
theorem removeMenuItem_spec (s : ManageState) (id : String) :
    (∀ x ∈ (removeMenuItem s id).menuItems, x.id ≠ id) ∧
    (∀ x, x ∈ (removeMenuItem s id).menuItems ↔ x ∈ s.menuItems ∧ x.id ≠ id) ∧
    (∀ x, x.id ≠ id → (removeMenuItem s id).menuItems.count x = s.menuItems.count x) ∧
    (removeMenuItem s id).menuItems.Sublist s.menuItems := by
  refine ⟨?_, ?_, ?_, ?_⟩
  · intro x hx
    simp only [removeMenuItem, List.mem_filter] at hx
    simpa using hx.2
  · intro x
    simp [removeMenuItem, List.mem_filter]
  · intro x hx
    simp only [removeMenuItem]
    rw [List.count_filter]
    simpa using hx
  · exact List.filter_sublist _

/-- C7. When no item of the store carries `id`, `removeMenuItem(id)` changes
nothing: the resulting state, and so the store, equals the original one. -/
theorem removeMenuItem_absent (s : ManageState) (id : String)
    (h : ∀ x ∈ s.menuItems, x.id ≠ id) :
    removeMenuItem s id = s ∧ (removeMenuItem s id).menuItems = s.menuItems := by
  have h1 : s.menuItems.filter (fun item => item.id != id) = s.menuItems := by
    apply List.filter_eq_self.2
    intro y hy
    simpa using h y hy
  simp [removeMenuItem, h1]

theorem removeMenuItem_absent_witness :
    (∀ x ∈ (ManageState.init (some [⟨"0.25", "Soup", "Hot", "Starters", "25.00"⟩])).menuItems,
      x.id ≠ "0.75") ∧
    (removeMenuItem (ManageState.init (some [⟨"0.25", "Soup", "Hot", "Starters", "25.00"⟩]))
        "0.75" = ManageState.init (some [⟨"0.25", "Soup", "Hot", "Starters", "25.00"⟩]) ∧
      (removeMenuItem (ManageState.init (some [⟨"0.25", "Soup", "Hot", "Starters", "25.00"⟩]))
        "0.75").menuItems =
        (ManageState.init (some [⟨"0.25", "Soup", "Hot", "Starters", "25.00"⟩])).menuItems) :=
  ⟨by decide, removeMenuItem_absent _ _ (by decide)⟩

/-- C3, as amended. When no item of the store carries the id drawn for the new
item, adding an accepted item and then removing that id restores the store:
`removeMenuItem(newId)` applied to `[...menuItems, newItem]` is `menuItems`. -/
theorem add_then_remove_restores (s : ManageState) (randomId : String)
    (h1 : s.dishName ≠ "") (h2 : s.description ≠ "") (h3 : s.price ≠ "")
    (hfresh : ∀ x ∈ s.menuItems, x.id ≠ randomId) :
    (addMenuItem s randomId).2 = none ∧
    (removeMenuItem (addMenuItem s randomId).1 randomId).menuItems = s.menuItems := by
  rw [addMenuItem_of_filled s randomId h1 h2 h3]
  refine ⟨rfl, ?_⟩
  simp only [removeMenuItem]
  exact filter_ne_append_fresh s.menuItems
    { id := randomId, dishName := s.dishName, description := s.description,
      course := s.course, price := s.price } hfresh

theorem add_then_remove_restores_witness :
    (("Steak" : String) ≠ "" ∧ ("Rare" : String) ≠ "" ∧ ("120.00" : String) ≠ "" ∧
      ∀ x ∈ [(⟨"0.25", "Soup", "Hot", "Starters", "25.00"⟩ : MenuItem)], x.id ≠ "0.75") ∧
    ((addMenuItem ⟨"Steak", "Rare", "Mains", "120.00",
        [⟨"0.25", "Soup", "Hot", "Starters", "25.00"⟩]⟩ "0.75").2 = none ∧
      (removeMenuItem (addMenuItem ⟨"Steak", "Rare", "Mains", "120.00",
        [⟨"0.25", "Soup", "Hot", "Starters", "25.00"⟩]⟩ "0.75").1 "0.75").menuItems =
        [⟨"0.25", "Soup", "Hot", "Starters", "25.00"⟩]) :=
  ⟨by decide,
   add_then_remove_restores
     ⟨"Steak", "Rare", "Mains", "120.00", [⟨"0.25", "Soup", "Hot", "Starters", "25.00"⟩]⟩
     "0.75" (by decide) (by decide) (by decide) (by decide)⟩

/-- C3, counterexample. The store holds one item with id "0.5" and
`Math.random().toString()` yields "0.5" again: the form is accepted, and
removing the new id empties the store instead of restoring it. -/
theorem add_then_remove_collision :
    (addMenuItem ⟨"Steak", "Rare", "Mains", "120.00",
        [⟨"0.5", "Soup", "Hot", "Starters", "25.00"⟩]⟩ "0.5").2 = none ∧
    (removeMenuItem (addMenuItem ⟨"Steak", "Rare", "Mains", "120.00",
        [⟨"0.5", "Soup", "Hot", "Starters", "25.00"⟩]⟩ "0.5").1 "0.5").menuItems = [] ∧
    (removeMenuItem (addMenuItem ⟨"Steak", "Rare", "Mains", "120.00",
        [⟨"0.5", "Soup", "Hot", "Starters", "25.00"⟩]⟩ "0.5").1 "0.5").menuItems ≠
      [⟨"0.5", "Soup", "Hot", "Starters", "25.00"⟩] := by
  decide

/-- C4, as amended. When dishName, description or price is the empty string,
`addMenuItem` leaves the state, and so the store, unchanged and raises the
alert 'Please fill all fields.'; no item is appended. -/
theorem addMenuItem_rejects_empty (s : ManageState) (randomId : String)
    (h : s.dishName = "" ∨ s.description = "" ∨ s.price = "") :
    addMenuItem s randomId = (s, some "Please fill all fields.") ∧
    (addMenuItem s randomId).1.menuItems = s.menuItems := by
  have h0 : (truthy s.dishName && truthy s.description && truthy s.price) = false := by
    rcases h with h | h | h <;> simp [truthy, h]
  simp [addMenuItem, h0]

theorem addMenuItem_rejects_empty_witness :
    ((("Soup" : String) = "" ∨ ("Hot" : String) = "" ∨ ("" : String) = "")) ∧
    (addMenuItem ⟨"Soup", "Hot", "Starters", "", []⟩ "0.25" =
        (⟨"Soup", "Hot", "Starters", "", []⟩, some "Please fill all fields.") ∧
      (addMenuItem ⟨"Soup", "Hot", "Starters", "", []⟩ "0.25").1.menuItems = []) :=
  ⟨by decide, addMenuItem_rejects_empty ⟨"Soup", "Hot", "Starters", "", []⟩ "0.25" (by decide)⟩

/-- C4, counterexample. A dish name that consists of one space is blank, yet
the form is accepted: no alert is raised and the item is appended. -/
theorem addMenuItem_accepts_blank :
    isBlankText " " = true ∧
    (addMenuItem ⟨" ", "Hot", "Starters", "25.00", []⟩ "0.25").2 = none ∧
    (addMenuItem ⟨" ", "Hot", "Starters", "25.00", []⟩ "0.25").1.menuItems =
      [⟨"0.25", " ", "Hot", "Starters", "25.00"⟩] := by
  decide

theorem run_course_of_no_setCourse (events : List Event) :
    ∀ s : ManageState, (∀ e ∈ events, e.isSetCourse = false) → (run s events).course = s.course := by
  induction events with
  | nil => intro s _; rfl
  | cons e rest ih =>
    intro s h
    have hrest : ∀ e ∈ rest, e.isSetCourse = false := fun x hx => h x (List.mem_cons_of_mem _ hx)
    have he : e.isSetCourse = false := h e (List.mem_cons_self _ _)
    have hstep : (step s e).course = s.course := by
      cases e with
      | setCourse v => simp [Event.isSetCourse] at he
      | pressAdd r =>
        simp only [step, addMenuItem]
        split <;> rfl
      | setDishName t => rfl
      | setDescription t => rfl
      | setPrice t => rfl
      | pressRemove i => rfl
    show (run (step s e) rest).course = s.course
    rw [ih (step s e) hrest, hstep]

/-- C9. With non-empty dishName, description and price, `addMenuItem` raises no
alert and the new store is the old store with one item appended at the end: the
length grows by one, every previous position keeps its item, and the last item
carries the drawn id, the entered dishName, description and price and the
selected course; that course is 'Starters' when the state was reached from the
initial state of the screen without a choice in the course picker. -/
theorem addMenuItem_appends (s : ManageState) (randomId : String)
    (h1 : s.dishName ≠ "") (h2 : s.description ≠ "") (h3 : s.price ≠ "") :
    (addMenuItem s randomId).2 = none ∧
    (addMenuItem s randomId).1.menuItems =
      s.menuItems ++ [{ id := randomId, dishName := s.dishName, description := s.description,
                        course := s.course, price := s.price }] ∧
    (addMenuItem s randomId).1.menuItems.length = s.menuItems.length + 1 ∧
    (∀ i, i < s.menuItems.length →
      (addMenuItem s randomId).1.menuItems[i]? = s.menuItems[i]?) ∧
    (addMenuItem s randomId).1.menuItems[s.menuItems.length]? =
      some { id := randomId, dishName := s.dishName, description := s.description,
             course := s.course, price := s.price } ∧
    (∀ params events, (∀ e ∈ events, e.isSetCourse = false) →
      s = run (ManageState.init params) events → s.course = "Starters") := by
  rw [addMenuItem_of_filled s randomId h1 h2 h3]
  refine ⟨rfl, rfl, ?_, ?_, ?_, ?_⟩
  · simp
  · intro i hi
    simp [List.getElem?_append_left hi]
  · simp
  · intro params events hev hs
    rw [hs, run_course_of_no_setCourse events _ hev]
    rfl

theorem addMenuItem_appends_witness :
    (("Soup" : String) ≠ "" ∧ ("Hot" : String) ≠ "" ∧ ("25.00" : String) ≠ "") ∧
    (addMenuItem (run (ManageState.init none)
        [.setDishName "Soup", .setDescription "Hot", .setPrice "25.00"]) "0.25").1.menuItems =
      [] ++ [⟨"0.25", "Soup", "Hot", "Starters", "25.00"⟩] :=
  ⟨by decide,
   (addMenuItem_appends (run (ManageState.init none)
        [.setDishName "Soup", .setDescription "Hot", .setPrice "25.00"]) "0.25"
      (by decide) (by decide) (by decide)).2.1⟩

theorem step_ids_nodup (s : ManageState) (e : Event)
    (hs : (s.menuItems.map MenuItem.id).Nodup) (hf : freshDraws s [e] = true) :
    ((step s e).menuItems.map MenuItem.id).Nodup := by
  cases e with
  | pressAdd r =>
    have hf : r ∉ s.menuItems.map MenuItem.id := by
      simpa [freshDraws] using hf
    simp only [step, addMenuItem]
    split
    · simp only [List.map_append, List.map_cons, List.map_nil]
      rw [List.nodup_append]
      refine ⟨hs, List.nodup_singleton _, ?_⟩
      intro a ha hb
      simp only [List.mem_singleton] at hb
      exact hf (hb ▸ ha)
    · exact hs
  | pressRemove i =>
    simp only [step, removeMenuItem]
    exact hs.sublist ((List.filter_sublist _).map _)
  | setDishName t => exact hs
  | setDescription t => exact hs
  | setCourse t => exact hs
  | setPrice t => exact hs

theorem freshDraws_cons (s : ManageState) (e : Event) (rest : List Event) :
    freshDraws s (e :: rest) = (freshDraws s [e] && freshDraws (step s e) rest) := by
  cases e <;> simp [freshDraws]

theorem run_ids_nodup (events : List Event) :
    ∀ s : ManageState, (s.menuItems.map MenuItem.id).Nodup → freshDraws s events = true →
      ((run s events).menuItems.map MenuItem.id).Nodup := by
  induction events with
  | nil => intro s hs _; exact hs
  | cons e rest ih =>
    intro s hs hf
    rw [freshDraws_cons, Bool.and_eq_true] at hf
    exact ih (step s e) (step_ids_nodup s e hs hf.1) hf.2

/-- C8, as amended. Starting from the empty store, after any sequence of
interactions in which every press of "Add Menu Item" draws an id that no item
of the store carries at that moment, no two items of the store have the same
id. The code draws the id with `Math.random().toString()` and does not compare
it with the ids of the store. -/
theorem ids_nodup_of_freshDraws (events : List Event)
    (h : freshDraws (ManageState.init none) events = true) :
    ((run (ManageState.init none) events).menuItems.map MenuItem.id).Nodup :=
  run_ids_nodup events (ManageState.init none) List.nodup_nil h

theorem ids_nodup_of_freshDraws_witness :
    freshDraws (ManageState.init none)
      [.setDishName "Soup", .setDescription "Hot", .setPrice "25.00", .pressAdd "0.25",
       .setDishName "Steak", .setDescription "Rare", .setCourse "Mains", .setPrice "120.00",
       .pressAdd "0.75", .pressRemove "0.25"] = true ∧
    ((run (ManageState.init none)
      [.setDishName "Soup", .setDescription "Hot", .setPrice "25.00", .pressAdd "0.25",
       .setDishName "Steak", .setDescription "Rare", .setCourse "Mains", .setPrice "120.00",
       .pressAdd "0.75", .pressRemove "0.25"]).menuItems.map MenuItem.id).Nodup :=
  ⟨by decide, ids_nodup_of_freshDraws _ (by decide)⟩

/-- C8, counterexample. From the empty store, two accepted additions for which
`Math.random().toString()` yields "0.5" both times leave two items with the
same id in the store: the id of the second item equals the id of an item
already in the store. -/
theorem ids_duplicate_on_collision :
    (run (ManageState.init none)
      [.setDishName "Soup", .setDescription "Hot", .setPrice "25.00", .pressAdd "0.5",
       .setDishName "Steak", .setDescription "Rare", .setPrice "120.00",
       .pressAdd "0.5"]).menuItems =
      [⟨"0.5", "Soup", "Hot", "Starters", "25.00"⟩,
       ⟨"0.5", "Steak", "Rare", "Starters", "120.00"⟩] ∧
    ¬ ((run (ManageState.init none)
      [.setDishName "Soup", .setDescription "Hot", .setPrice "25.00", .pressAdd "0.5",
       .setDishName "Steak", .setDescription "Rare", .setPrice "120.00",
       .pressAdd "0.5"]).menuItems.map MenuItem.id).Nodup := by
  decide

/-! ## Properties of the aggregation -/

theorem F64.add_nan_left (y : F64) : F64.add .nan y = .nan := by
  cases y <;> rfl

theorem F64.add_nan_right (x : F64) : F64.add x .nan = .nan := by
  cases x <;> rfl

theorem F64.div_nan_left (y : F64) : F64.div .nan y = .nan := by
  cases y <;> rfl

theorem foldl_add_nan (prices : List F64) :
    prices.foldl (fun sum p => F64.add sum p) .nan = .nan := by
  induction prices with
  | nil => rfl
  | cons p rest ih => simpa [List.foldl, F64.add_nan_left] using ih

theorem foldl_add_of_mem_nan (prices : List F64) :
    ∀ init : F64, F64.nan ∈ prices → prices.foldl (fun sum p => F64.add sum p) init = .nan := by
  induction prices with
  | nil => intro _ h; simp at h
  | cons p rest ih =>
    intro init h
    rcases List.mem_cons.1 h with h | h
    · subst h
      simp only [List.foldl, F64.add_nan_right]
      exact foldl_add_nan rest
    · exact ih _ h

theorem foldl_parse_eq (items : List MenuItem) (init : F64) :
    items.foldl (fun sum item => F64.add sum (parseFloat item.price)) init =
      (items.map (fun item => parseFloat item.price)).foldl (fun sum p => F64.add sum p) init := by
  rw [List.foldl_map]

/-- C2. When the list holds no item of course `c` (in particular when it is
empty), `calculateAveragePrice` returns the Number 0 and its evaluation performs
no division at all, whatever the prices of the items are. -/
theorem calculateAveragePrice_no_items (menuItems : List MenuItem) (c : String)
    (h : ∀ x ∈ menuItems, x.course ≠ c) :
    calculateAveragePrice menuItems c = .num F64.zero ∧
    (calculateAveragePriceTraced menuItems c).2 = [] ∧
    calculateAveragePrice [] c = .num F64.zero := by
  have h1 : menuItems.filter (fun item => item.course == c) = [] := by
    apply List.filter_eq_nil_iff.2
    intro x hx
    simpa using h x hx
  refine ⟨?_, ?_, rfl⟩
  · simp only [calculateAveragePrice, calculateAveragePriceTraced, h1]
    rfl
  · simp only [calculateAveragePriceTraced, h1]
    rfl

theorem calculateAveragePrice_no_items_witness :
    (∀ x ∈ [(⟨"0.25", "Soup", "Hot", "Starters", "25.00"⟩ : MenuItem),
            ⟨"0.75", "Steak", "Rare", "Mains", "abc"⟩], x.course ≠ "Dessert") ∧
    (calculateAveragePrice [⟨"0.25", "Soup", "Hot", "Starters", "25.00"⟩,
        ⟨"0.75", "Steak", "Rare", "Mains", "abc"⟩] "Dessert" = .num F64.zero ∧
      (calculateAveragePriceTraced [⟨"0.25", "Soup", "Hot", "Starters", "25.00"⟩,
        ⟨"0.75", "Steak", "Rare", "Mains", "abc"⟩] "Dessert").2 = [] ∧
      calculateAveragePrice [] "Dessert" = .num F64.zero) :=
  ⟨by decide, calculateAveragePrice_no_items _ _ (by decide)⟩

/-- C10. A non-empty price text that `parseFloat` does not read as a number is
accepted by `addMenuItem` (with non-empty dishName and description) without an
alert, and for every list that holds an item of course `c` with such a price,
`calculateAveragePrice` returns the rendering "NaN" of the Number NaN, whatever
the other prices are; the evaluation raises no error. -/
theorem nonNumeric_price_gives_NaN (s : ManageState) (randomId : String)
    (menuItems : List MenuItem) (x : MenuItem) (c : String)
    (h1 : s.dishName ≠ "") (h2 : s.description ≠ "") (h3 : s.price ≠ "")
    (hx : x ∈ menuItems) (hc : x.course = c) (hnan : parseFloat x.price = .nan) :
    ((addMenuItem s randomId).2 = none ∧
      (addMenuItem s randomId).1.menuItems =
        s.menuItems ++ [{ id := randomId, dishName := s.dishName,
                          description := s.description, course := s.course,
                          price := s.price }]) ∧
    calculateAveragePrice menuItems c = .str "NaN" := by
  refine ⟨?_, ?_⟩
  · rw [addMenuItem_of_filled s randomId h1 h2 h3]
    exact ⟨rfl, rfl⟩
  · have hmem : x ∈ menuItems.filter (fun item => item.course == c) := by
      simp [List.mem_filter, hx, hc]
    have hlen : (menuItems.filter (fun item => item.course == c)).length ≠ 0 := by
      intro h0
      rw [List.length_eq_zero] at h0
      rw [h0] at hmem
      simp at hmem
    have htotal : (menuItems.filter (fun item => item.course == c)).foldl
        (fun sum item => F64.add sum (parseFloat item.price)) (F64.ofNat 0) = .nan := by
      rw [foldl_parse_eq]
      apply foldl_add_of_mem_nan
      rw [← hnan]
      exact List.mem_map_of_mem _ hmem
    simp only [calculateAveragePrice, calculateAveragePriceTraced, htotal, if_pos hlen,
      F64.div_nan_left]
    rfl

theorem nonNumeric_price_gives_NaN_witness :
    ((("Pie" : String) ≠ "" ∧ ("Sweet" : String) ≠ "" ∧ ("abc" : String) ≠ "") ∧
      (⟨"0.75", "Pie", "Sweet", "Dessert", "abc"⟩ : MenuItem) ∈
        [(⟨"0.25", "Cake", "Rich", "Dessert", "40.00"⟩ : MenuItem),
         ⟨"0.75", "Pie", "Sweet", "Dessert", "abc"⟩] ∧
      parseFloat "abc" = .nan) ∧
    calculateAveragePrice [⟨"0.25", "Cake", "Rich", "Dessert", "40.00"⟩,
        ⟨"0.75", "Pie", "Sweet", "Dessert", "abc"⟩] "Dessert" = .str "NaN" :=
  ⟨by decide,
   (nonNumeric_price_gives_NaN ⟨"Pie", "Sweet", "Dessert", "abc", []⟩ "0.75"
      [⟨"0.25", "Cake", "Rich", "Dessert", "40.00"⟩, ⟨"0.75", "Pie", "Sweet", "Dessert", "abc"⟩]
      ⟨"0.75", "Pie", "Sweet", "Dessert", "abc"⟩ "Dessert"
      (by decide) (by decide) (by decide) (by decide) rfl (by decide)).2⟩

/-! ## Rounding to binary64 -/

theorem floorLog2Aux_spec (fuel : Nat) :
    ∀ n : Nat, n ≤ fuel → 1 ≤ n →
      2 ^ floorLog2Aux fuel n ≤ n ∧ n < 2 ^ (floorLog2Aux fuel n + 1) := by
  induction fuel with
  | zero => intro n h0 h1; omega
  | succ fuel ih =>
    intro n hn h1
    unfold floorLog2Aux
    split
    · constructor <;> simp <;> omega
    · have h2 : n / 2 ≤ fuel := by omega
      have h3 : 1 ≤ n / 2 := by omega
      obtain ⟨ha, hb⟩ := ih (n / 2) h2 h3
      constructor
      · rw [pow_succ]; omega
      · rw [pow_succ]; omega

theorem floorLog2_spec (n : Nat) (h : 1 ≤ n) :
    2 ^ floorLog2 n ≤ n ∧ n < 2 ^ (floorLog2 n + 1) :=
  floorLog2Aux_spec n n (le_refl n) h

theorem two_pow_toNat_div (e : ℤ) :
    ((2 : ℚ) ^ e.toNat) / (2 : ℚ) ^ (-e).toNat = (2 : ℚ) ^ e := by
  rcases le_total 0 e with h | h
  · have h1 : (-e).toNat = 0 := Int.toNat_eq_zero.2 (by omega)
    rw [h1, pow_zero, div_one, ← zpow_natCast, Int.toNat_of_nonneg h]
  · have h1 : e.toNat = 0 := Int.toNat_eq_zero.2 h
    have h2 : ((-e).toNat : ℤ) = -e := Int.toNat_of_nonneg (by omega)
    rw [h1, pow_zero, one_div, ← zpow_natCast, h2, zpow_neg, inv_inv]

theorem scaled_ratio (num den : Nat) (e : ℤ) :
    ((num * 2 ^ (-e).toNat : Nat) : ℚ) / ((den * 2 ^ e.toNat : Nat) : ℚ) =
      ((num : ℚ) / den) / (2 : ℚ) ^ e := by
  rw [← two_pow_toNat_div e]
  push_cast
  have h1 : ((2 : ℚ) ^ e.toNat) ≠ 0 := by positivity
  have h2 : ((2 : ℚ) ^ (-e).toNat) ≠ 0 := by positivity
  by_cases hd : (den : ℚ) = 0
  · simp [hd]
  · field_simp

theorem floorLog2Ratio_spec (num den : Nat) (hn : 1 ≤ num) (hd : 1 ≤ den) :
    (2 : ℚ) ^ floorLog2Ratio num den ≤ (num : ℚ) / den ∧
    (num : ℚ) / den < (2 : ℚ) ^ (floorLog2Ratio num den + 1) := by
  obtain ⟨ha1, ha2⟩ := floorLog2_spec num hn
  obtain ⟨hb1, hb2⟩ := floorLog2_spec den hd
  have hdq : (0 : ℚ) < den := by exact_mod_cast hd
  have ha1q : ((2 : ℚ) ^ (floorLog2 num : ℤ)) ≤ num := by
    rw [zpow_natCast]; exact_mod_cast ha1
  have ha2q : (num : ℚ) < (2 : ℚ) ^ ((floorLog2 num : ℤ) + 1) := by
    rw [← Nat.cast_succ, zpow_natCast]; exact_mod_cast ha2
  have hb1q : ((2 : ℚ) ^ (floorLog2 den : ℤ)) ≤ den := by
    rw [zpow_natCast]; exact_mod_cast hb1
  have hb2q : (den : ℚ) < (2 : ℚ) ^ ((floorLog2 den : ℤ) + 1) := by
    rw [← Nat.cast_succ, zpow_natCast]; exact_mod_cast hb2
  have hpos : ∀ k : ℤ, (0 : ℚ) < (2 : ℚ) ^ k := fun k => by positivity
  -- the test of the definition, read over the rationals
  have htest : ∀ t : ℤ, (den * 2 ^ t.toNat ≤ num * 2 ^ (-t).toNat) ↔
      (2 : ℚ) ^ t ≤ (num : ℚ) / den := by
    intro t
    rw [le_div_iff₀ hdq, ← two_pow_toNat_div t, div_mul_eq_mul_div,
      div_le_iff₀ (by positivity)]
    constructor
    · intro h
      have : ((den * 2 ^ t.toNat : Nat) : ℚ) ≤ ((num * 2 ^ (-t).toNat : Nat) : ℚ) := by
        exact_mod_cast h
      push_cast at this
      linarith
    · intro h
      have : ((den * 2 ^ t.toNat : Nat) : ℚ) ≤ ((num * 2 ^ (-t).toNat : Nat) : ℚ) := by
        push_cast
        linarith
      exact_mod_cast this
  unfold floorLog2Ratio
  simp only
  split
  · rename_i h
    refine ⟨(htest _).1 h, ?_⟩
    rw [div_lt_iff₀ hdq]
    calc (num : ℚ) < (2 : ℚ) ^ ((floorLog2 num : ℤ) + 1) := ha2q
      _ = (2 : ℚ) ^ ((floorLog2 num : ℤ) - (floorLog2 den : ℤ) + 1) * (2 : ℚ) ^ (floorLog2 den : ℤ) := by
          rw [← zpow_add₀ (by norm_num : (2 : ℚ) ≠ 0)]; congr 1; ring
      _ ≤ (2 : ℚ) ^ ((floorLog2 num : ℤ) - (floorLog2 den : ℤ) + 1) * den :=
          mul_le_mul_of_nonneg_left hb1q (le_of_lt (hpos _))
  · rename_i h
    have h1 : ¬ ((2 : ℚ) ^ ((floorLog2 num : ℤ) - (floorLog2 den : ℤ)) ≤ (num : ℚ) / den) :=
      fun hc => h ((htest _).2 hc)
    constructor
    · rw [le_div_iff₀ hdq]
      calc (2 : ℚ) ^ ((floorLog2 num : ℤ) - (floorLog2 den : ℤ) - 1) * den
          ≤ (2 : ℚ) ^ ((floorLog2 num : ℤ) - (floorLog2 den : ℤ) - 1) *
              (2 : ℚ) ^ ((floorLog2 den : ℤ) + 1) :=
            mul_le_mul_of_nonneg_left (le_of_lt hb2q) (le_of_lt (hpos _))
        _ = (2 : ℚ) ^ (floorLog2 num : ℤ) := by
            rw [← zpow_add₀ (by norm_num : (2 : ℚ) ≠ 0)]; congr 1; ring
        _ ≤ num := ha1q
    · have : (floorLog2 num : ℤ) - (floorLog2 den : ℤ) - 1 + 1 =
          (floorLog2 num : ℤ) - (floorLog2 den : ℤ) := by ring
      rw [this]
      exact lt_of_not_le h1

theorem roundHalfEven_error (n d : Nat) (hd : 0 < d) :
    |((roundHalfEven n d : Nat) : ℚ) - (n : ℚ) / d| ≤ 1 / 2 := by
  unfold roundHalfEven
  simp only
  have hdq : (0 : ℚ) < d := by exact_mod_cast hd
  have hdiv : (n : ℚ) / d = ((n / d : Nat) : ℚ) + ((n % d : Nat) : ℚ) / d := by
    have h := Nat.div_add_mod n d
    have h2 : (n : ℚ) = (d : ℚ) * ((n / d : Nat) : ℚ) + ((n % d : Nat) : ℚ) := by
      exact_mod_cast h.symm
    rw [h2]
    field_simp
    ring
  have hr : ((n % d : Nat) : ℚ) < d := by exact_mod_cast Nat.mod_lt n hd
  have hr0 : (0 : ℚ) ≤ ((n % d : Nat) : ℚ) := by positivity
  rw [hdiv]
  split
  · rename_i h
    have h2 : (d : ℚ) ≤ 2 * ((n % d : Nat) : ℚ) := by
      rcases h with h | h
      · exact_mod_cast le_of_lt h
      · exact_mod_cast le_of_eq h.1.symm
    push_cast
    rw [abs_le]
    constructor
    · have : ((n % d : Nat) : ℚ) / d ≤ 1 := by rw [div_le_one hdq]; exact le_of_lt hr
      linarith
    · have : (1 : ℚ) / 2 ≤ ((n % d : Nat) : ℚ) / d := by
        rw [le_div_iff₀ hdq]; linarith
      linarith
  · rename_i h
    have h2 : 2 * ((n % d : Nat) : ℚ) ≤ d := by
      have : ¬ d < 2 * (n % d) := fun hc => h (Or.inl hc)
      exact_mod_cast not_lt.1 this
    rw [abs_le]
    constructor
    · have : ((n % d : Nat) : ℚ) / d ≤ 1 / 2 := by
        rw [div_le_iff₀ hdq]; linarith
      linarith
    · have : (0 : ℚ) ≤ ((n % d : Nat) : ℚ) / d := by positivity
      linarith

theorem roundNearestEven_zero (neg : Bool) (den : Nat) :
    roundNearestEven neg 0 den = .fin neg 0 0 := by
  simp [roundNearestEven]

theorem roundNearestEven_normal (neg : Bool) (num den : Nat) (hn : 1 ≤ num) (hd : 1 ≤ den)
    (hlo : (2 : ℚ) ^ (-1022 : ℤ) ≤ (num : ℚ) / den)
    (hhi : (num : ℚ) / den < (2 : ℚ) ^ (1023 : ℤ)) :
    ∃ m e, roundNearestEven neg num den = .fin neg m e ∧
      |(m : ℚ) * (2 : ℚ) ^ e - (num : ℚ) / den| ≤ (num : ℚ) / den * (2 : ℚ) ^ (-53 : ℤ) := by
  obtain ⟨hL1, hL2⟩ := floorLog2Ratio_spec num den hn hd
  have two1 : (1 : ℚ) < 2 := by norm_num
  have hLlo : -1022 ≤ floorLog2Ratio num den := by
    have := lt_of_le_of_lt hlo hL2
    rw [zpow_lt_zpow_iff_right₀ two1] at this
    omega
  have hLhi : floorLog2Ratio num den ≤ 1022 := by
    have := lt_of_le_of_lt hL1 hhi
    rw [zpow_lt_zpow_iff_right₀ two1] at this
    omega
  have hmax : max (floorLog2Ratio num den - 52) (-1074) = floorLog2Ratio num den - 52 :=
    max_eq_left (by omega)
  have hne : num ≠ 0 := by omega
  have hdpos : 0 < den * 2 ^ (floorLog2Ratio num den - 52).toNat :=
    Nat.mul_pos hd (by positivity)
  have hq := roundHalfEven_error (num * 2 ^ (-(floorLog2Ratio num den - 52)).toNat)
    (den * 2 ^ (floorLog2Ratio num den - 52).toNat) hdpos
  rw [scaled_ratio] at hq
  have hepos : (0 : ℚ) < (2 : ℚ) ^ (floorLog2Ratio num den - 52) := by positivity
  -- the error of the chosen significand, scaled back
  have herr : ∀ m : Nat,
      |(m : ℚ) - (num : ℚ) / den / (2 : ℚ) ^ (floorLog2Ratio num den - 52)| ≤ 1 / 2 →
      |(m : ℚ) * (2 : ℚ) ^ (floorLog2Ratio num den - 52) - (num : ℚ) / den| ≤
        (num : ℚ) / den * (2 : ℚ) ^ (-53 : ℤ) := by
    intro m hm
    have h1 : (m : ℚ) * (2 : ℚ) ^ (floorLog2Ratio num den - 52) - (num : ℚ) / den =
        ((m : ℚ) - (num : ℚ) / den / (2 : ℚ) ^ (floorLog2Ratio num den - 52)) *
          (2 : ℚ) ^ (floorLog2Ratio num den - 52) := by
      field_simp
      ring
    rw [h1, abs_mul, abs_of_pos hepos]
    have h2 : (2 : ℚ) ^ (floorLog2Ratio num den - 52) * (1 / 2) =
        (2 : ℚ) ^ (floorLog2Ratio num den) * (2 : ℚ) ^ (-53 : ℤ) := by
      rw [← zpow_add₀ (by norm_num : (2 : ℚ) ≠ 0)]
      have : floorLog2Ratio num den + -53 = (floorLog2Ratio num den - 52) + (-1) := by ring
      rw [this, zpow_add₀ (by norm_num : (2 : ℚ) ≠ 0)]
      norm_num
    calc |(m : ℚ) - (num : ℚ) / den / (2 : ℚ) ^ (floorLog2Ratio num den - 52)| *
          (2 : ℚ) ^ (floorLog2Ratio num den - 52)
        ≤ 1 / 2 * (2 : ℚ) ^ (floorLog2Ratio num den - 52) :=
          mul_le_mul_of_nonneg_right hm (le_of_lt hepos)
      _ = (2 : ℚ) ^ (floorLog2Ratio num den) * (2 : ℚ) ^ (-53 : ℤ) := by rw [← h2]; ring
      _ ≤ (num : ℚ) / den * (2 : ℚ) ^ (-53 : ℤ) :=
          mul_le_mul_of_nonneg_right hL1 (by positivity)
  simp only [roundNearestEven, if_neg hne, hmax]
  generalize roundHalfEven (num * 2 ^ (-(floorLog2Ratio num den - 52)).toNat)
    (den * 2 ^ (floorLog2Ratio num den - 52).toNat) = m at hq ⊢
  by_cases hm : m = 2 ^ 53
  · simp only [if_pos hm]
    rw [if_neg (by omega)]
    refine ⟨2 ^ 52, floorLog2Ratio num den - 52 + 1, by norm_num, ?_⟩
    have h3 := herr m hq
    rw [hm] at h3
    have h4 : ((2 ^ 52 : Nat) : ℚ) * (2 : ℚ) ^ (floorLog2Ratio num den - 52 + 1) =
        ((2 ^ 53 : Nat) : ℚ) * (2 : ℚ) ^ (floorLog2Ratio num den - 52) := by
      rw [zpow_add₀ (by norm_num : (2 : ℚ) ≠ 0)]
      push_cast
      ring
    rw [h4]
    exact h3
  · simp only [if_neg hm]
    rw [if_neg (by omega)]
    by_cases hm0 : m = 0
    · refine ⟨0, 0, by simp [hm0], ?_⟩
      have h3 := herr m hq
      rw [hm0] at h3
      simpa using h3
    · exact ⟨m, floorLog2Ratio num den - 52, by simp [hm0], herr m hq⟩

theorem unitRoundoff_eq : unitRoundoff = (2 : ℚ) ^ (-53 : ℤ) := by
  rw [unitRoundoff, zpow_neg, one_div]
  norm_cast

theorem roundNearestEven_approx (num den : Nat) (hd : 1 ≤ den)
    (hlo : (num : ℚ) / den = 0 ∨ (2 : ℚ) ^ (-1022 : ℤ) ≤ (num : ℚ) / den)
    (hhi : (num : ℚ) / den < (2 : ℚ) ^ (1023 : ℤ)) :
    Approx (roundNearestEven false num den) ((num : ℚ) / den) 1 := by
  have hdq : (0 : ℚ) < den := by exact_mod_cast hd
  by_cases hn : num = 0
  · subst hn
    exact ⟨0, 0, roundNearestEven_zero _ _, by simp, by simp⟩
  · have hn1 : 1 ≤ num := by omega
    have hlo2 : (2 : ℚ) ^ (-1022 : ℤ) ≤ (num : ℚ) / den := by
      rcases hlo with h | h
      · exfalso
        have : (0 : ℚ) < (num : ℚ) / den := by positivity
        linarith
      · exact h
    obtain ⟨m, e, h1, h2⟩ := roundNearestEven_normal false num den hn1 hd hlo2 hhi
    rw [← unitRoundoff_eq, abs_le] at h2
    exact ⟨m, e, h1, by rw [pow_one]; linarith [h2.1], by rw [pow_one]; linarith [h2.2]⟩

theorem two_pow_toNat_of_nonneg (k : ℤ) (hk : 0 ≤ k) : ((2 : ℚ) ^ k.toNat) = (2 : ℚ) ^ k := by
  rw [← zpow_natCast, Int.toNat_of_nonneg hk]

theorem shift_value (m : Nat) (a e : ℤ) (h : e ≤ a) :
    ((m * 2 ^ (a - e).toNat : Nat) : ℚ) * (2 : ℚ) ^ e = (m : ℚ) * (2 : ℚ) ^ a := by
  push_cast
  rw [two_pow_toNat_of_nonneg (a - e) (by omega), mul_assoc,
    ← zpow_add₀ (by norm_num : (2 : ℚ) ≠ 0)]
  congr 2
  ring

theorem nat_ratio_zpow (n : Nat) (e : ℤ) :
    ((n * 2 ^ e.toNat : Nat) : ℚ) / ((2 ^ (-e).toNat : Nat) : ℚ) = (n : ℚ) * (2 : ℚ) ^ e := by
  push_cast
  rw [mul_div_assoc, two_pow_toNat_div]

theorem F64.add_nonneg_eq (ma mb : Nat) (ea eb : ℤ) :
    ∃ N D : Nat, 1 ≤ D ∧ (N : ℚ) / D = (ma : ℚ) * (2 : ℚ) ^ ea + (mb : ℚ) * (2 : ℚ) ^ eb ∧
      F64.add (.fin false ma ea) (.fin false mb eb) = roundNearestEven false N D := by
  have hsum : ((ma * 2 ^ (ea - min ea eb).toNat + mb * 2 ^ (eb - min ea eb).toNat : Nat) : ℚ) *
      (2 : ℚ) ^ (min ea eb) = (ma : ℚ) * (2 : ℚ) ^ ea + (mb : ℚ) * (2 : ℚ) ^ eb := by
    rw [Nat.cast_add, add_mul, shift_value ma ea _ (min_le_left _ _),
      shift_value mb eb _ (min_le_right _ _)]
  simp only [F64.add, signed, Bool.false_eq_true, if_false]
  by_cases hs : ((ma * 2 ^ (ea - min ea eb).toNat : Nat) : ℤ) +
      ((mb * 2 ^ (eb - min ea eb).toNat : Nat) : ℤ) = 0
  · rw [if_pos hs]
    refine ⟨0, 1, le_refl 1, ?_, by rw [roundNearestEven_zero]; rfl⟩
    have h0 : ma * 2 ^ (ea - min ea eb).toNat + mb * 2 ^ (eb - min ea eb).toNat = 0 := by
      exact_mod_cast hs
    rw [← hsum, h0]
    simp
  · rw [if_neg hs]
    have hnn : ¬ (((ma * 2 ^ (ea - min ea eb).toNat : Nat) : ℤ) +
        ((mb * 2 ^ (eb - min ea eb).toNat : Nat) : ℤ) < 0) := by
      have : (0 : ℤ) ≤ ((ma * 2 ^ (ea - min ea eb).toNat : Nat) : ℤ) +
        ((mb * 2 ^ (eb - min ea eb).toNat : Nat) : ℤ) := by positivity
      omega
    rw [decide_eq_false hnn]
    refine ⟨_, _, Nat.one_le_two_pow, ?_, rfl⟩
    rw [nat_ratio_zpow, ← hsum]
    congr 1

theorem F64.div_nonneg_eq (ma mb : Nat) (ea eb : ℤ) (hmb : mb ≠ 0) :
    ∃ N D : Nat, 1 ≤ D ∧
      (N : ℚ) / D = ((ma : ℚ) * (2 : ℚ) ^ ea) / ((mb : ℚ) * (2 : ℚ) ^ eb) ∧
      F64.div (.fin false ma ea) (.fin false mb eb) = roundNearestEven false N D := by
  simp only [F64.div, if_neg hmb, Bool.xor_false]
  refine ⟨_, _, Nat.mul_pos (Nat.pos_of_ne_zero hmb) (by positivity), ?_, rfl⟩
  have h := scaled_ratio ma mb (eb - ea)
  rw [neg_sub] at h
  rw [h, zpow_sub₀ (by norm_num : (2 : ℚ) ≠ 0)]
  have h1 : ((2 : ℚ) ^ ea) ≠ 0 := by positivity
  have h2 : ((2 : ℚ) ^ eb) ≠ 0 := by positivity
  have h3 : (mb : ℚ) ≠ 0 := by exact_mod_cast hmb
  field_simp

theorem roundHalfEven_one (n : Nat) : roundHalfEven n 1 = n := by
  simp [roundHalfEven, Nat.mod_one]

theorem F64.ofNat_exact (n : Nat) (h1 : 1 ≤ n) (h2 : n < 2 ^ 53) :
    ∃ m e, F64.ofNat n = .fin false m e ∧ (m : ℚ) * (2 : ℚ) ^ e = n ∧ m ≠ 0 := by
  obtain ⟨hL1, hL2⟩ := floorLog2Ratio_spec n 1 h1 (le_refl 1)
  simp only [Nat.cast_one, div_one] at hL1 hL2
  have two1 : (1 : ℚ) < 2 := by norm_num
  have hnq : (n : ℚ) < (2 : ℚ) ^ (53 : ℤ) := by
    have : (n : ℚ) < ((2 ^ 53 : Nat) : ℚ) := by exact_mod_cast h2
    rw [show ((2 : ℚ) ^ (53 : ℤ)) = ((2 ^ 53 : Nat) : ℚ) by norm_num]
    exact this
  have hLhi : floorLog2Ratio n 1 ≤ 52 := by
    have := lt_of_le_of_lt hL1 hnq
    rw [zpow_lt_zpow_iff_right₀ two1] at this
    omega
  have hLlo : 0 ≤ floorLog2Ratio n 1 := by
    have h : (2 : ℚ) ^ (0 : ℤ) ≤ (n : ℚ) := by
      rw [zpow_zero]; exact_mod_cast h1
    have := lt_of_le_of_lt h hL2
    rw [zpow_lt_zpow_iff_right₀ two1] at this
    omega
  have hmax : max (floorLog2Ratio n 1 - 52) (-1074) = floorLog2Ratio n 1 - 52 :=
    max_eq_left (by omega)
  have hne : n ≠ 0 := by omega
  have he0 : (floorLog2Ratio n 1 - 52).toNat = 0 := Int.toNat_eq_zero.2 (by omega)
  have hval : ((n * 2 ^ (-(floorLog2Ratio n 1 - 52)).toNat : Nat) : ℚ) *
      (2 : ℚ) ^ (floorLog2Ratio n 1 - 52) = n := by
    push_cast
    rw [two_pow_toNat_of_nonneg _ (by omega), mul_assoc,
      ← zpow_add₀ (by norm_num : (2 : ℚ) ≠ 0)]
    simp
  have hpos : (0 : ℚ) < (2 : ℚ) ^ (floorLog2Ratio n 1 - 52) := by positivity
  have hm53 : n * 2 ^ (-(floorLog2Ratio n 1 - 52)).toNat ≠ 2 ^ 53 := by
    intro hc
    rw [hc] at hval
    have h3 : (n : ℚ) < (2 : ℚ) ^ (floorLog2Ratio n 1 + 1) := hL2
    rw [← hval] at h3
    have h4 : (2 : ℚ) ^ (floorLog2Ratio n 1 + 1) =
        ((2 ^ 53 : Nat) : ℚ) * (2 : ℚ) ^ (floorLog2Ratio n 1 - 52) := by
      have : ((2 ^ 53 : Nat) : ℚ) = (2 : ℚ) ^ (53 : ℤ) := by norm_num
      rw [this, ← zpow_add₀ (by norm_num : (2 : ℚ) ≠ 0)]
      congr 1
      ring
    rw [h4] at h3
    exact lt_irrefl _ h3
  have hm0 : n * 2 ^ (-(floorLog2Ratio n 1 - 52)).toNat ≠ 0 :=
    Nat.mul_ne_zero hne (by positivity)
  refine ⟨_, floorLog2Ratio n 1 - 52, ?_, hval, hm0⟩
  simp only [F64.ofNat, roundNearestEven, if_neg hne, hmax, he0, pow_zero, mul_one,
    roundHalfEven_one, if_neg hm53, if_neg hm0]
  rw [if_neg (by omega)]

/-! ## Accumulation of rounding errors -/

theorem unitRoundoff_pos : 0 < unitRoundoff := by
  unfold unitRoundoff; positivity

theorem unitRoundoff_le : unitRoundoff ≤ 1 / 2 := by
  unfold unitRoundoff; norm_num

theorem one_sub_pow_ge (k : Nat) : 1 - (k : ℚ) * unitRoundoff ≤ (1 - unitRoundoff) ^ k := by
  have h := one_add_mul_le_pow (show (-2 : ℚ) ≤ -unitRoundoff by
    linarith [unitRoundoff_le]) k
  have e1 : 1 + (k : ℚ) * -unitRoundoff = 1 - (k : ℚ) * unitRoundoff := by ring
  have e2 : (1 + -unitRoundoff) = (1 - unitRoundoff) := by ring
  rw [e1, e2] at h
  exact h

theorem one_add_pow_le (k : Nat) (hk : 2 * (k : ℚ) * unitRoundoff ≤ 1) :
    (1 + unitRoundoff) ^ k ≤ 1 + 2 * (k : ℚ) * unitRoundoff := by
  induction k with
  | zero => simp
  | succ k ih =>
    have hu := unitRoundoff_pos
    have hk1 : 2 * (k : ℚ) * unitRoundoff ≤ 1 := by
      push_cast at hk
      nlinarith
    have h := ih hk1
    rw [pow_succ]
    push_cast
    have h2 : (1 + unitRoundoff) ^ k * (1 + unitRoundoff) ≤
        (1 + 2 * (k : ℚ) * unitRoundoff) * (1 + unitRoundoff) :=
      mul_le_mul_of_nonneg_right h (by linarith)
    nlinarith

theorem one_sub_pow_le_one (k : Nat) : (1 - unitRoundoff) ^ k ≤ 1 :=
  pow_le_one₀ (by linarith [unitRoundoff_le]) (by linarith [unitRoundoff_pos])

theorem one_sub_pow_nonneg (k : Nat) : 0 ≤ (1 - unitRoundoff) ^ k :=
  pow_nonneg (by linarith [unitRoundoff_le]) k

theorem one_le_one_add_pow (k : Nat) : 1 ≤ (1 + unitRoundoff) ^ k :=
  one_le_pow₀ (by linarith [unitRoundoff_pos])

theorem one_sub_pow_le_base (k : Nat) (hk : 1 ≤ k) :
    (1 - unitRoundoff) ^ k ≤ 1 - unitRoundoff := by
  obtain ⟨j, rfl⟩ : ∃ j, k = j + 1 := ⟨k - 1, by omega⟩
  rw [pow_succ]
  have h1 := one_sub_pow_le_one j
  have h2 : 0 ≤ 1 - unitRoundoff := by linarith [unitRoundoff_le]
  nlinarith

theorem base_le_one_add_pow (k : Nat) (hk : 1 ≤ k) :
    1 + unitRoundoff ≤ (1 + unitRoundoff) ^ k := by
  obtain ⟨j, rfl⟩ : ∃ j, k = j + 1 := ⟨k - 1, by omega⟩
  rw [pow_succ]
  have h1 := one_le_one_add_pow j
  have h2 : 0 ≤ 1 + unitRoundoff := by linarith [unitRoundoff_pos]
  nlinarith

/-- One more rounding: if the exact result `s` of an operation lies within `k`
roundings of `v`, its rounded value lies within `k + 1` roundings of `v`. -/
theorem Approx.round_step (num den : Nat) (hd : 1 ≤ den) (v : ℚ) (k : Nat)
    (hv : v = 0 ∨ (2 : ℚ) ^ (-1021 : ℤ) ≤ v) (hvhi : v < (2 : ℚ) ^ (1022 : ℤ))
    (hk : 2 * (k : ℚ) * unitRoundoff ≤ 1)
    (hlo : v * (1 - unitRoundoff) ^ k ≤ (num : ℚ) / den)
    (hhi : (num : ℚ) / den ≤ v * (1 + unitRoundoff) ^ k) :
    Approx (roundNearestEven false num den) v (k + 1) := by
  have hu := unitRoundoff_pos
  have hule := unitRoundoff_le
  have hs0 : (0 : ℚ) ≤ (num : ℚ) / den := by positivity
  have hvnn : 0 ≤ v := by
    rcases hv with h | h
    · rw [h]
    · exact le_trans (by positivity) h
  have hlow := one_sub_pow_ge k
  have hupp := one_add_pow_le k hk
  have hA : Approx (roundNearestEven false num den) ((num : ℚ) / den) 1 := by
    apply roundNearestEven_approx num den hd
    · rcases hv with h | h
      · left
        rw [h, zero_mul] at hhi
        linarith
      · right
        have h1 : (1 : ℚ) / 2 ≤ (1 - unitRoundoff) ^ k := by linarith
        have h2 : v * (1 / 2) ≤ v * (1 - unitRoundoff) ^ k :=
          mul_le_mul_of_nonneg_left h1 hvnn
        have h3 : (2 : ℚ) ^ (-1022 : ℤ) = (2 : ℚ) ^ (-1021 : ℤ) * (1 / 2) := by
          rw [show (-1022 : ℤ) = -1021 + -1 by norm_num,
            zpow_add₀ (by norm_num : (2 : ℚ) ≠ 0)]
          norm_num
        rw [h3]
        have h4 : (2 : ℚ) ^ (-1021 : ℤ) * (1 / 2) ≤ v * (1 / 2) :=
          mul_le_mul_of_nonneg_right h (by norm_num)
        linarith
    · have h1 : (1 + unitRoundoff) ^ k ≤ 2 := by linarith
      have h2 : v * (1 + unitRoundoff) ^ k ≤ v * 2 := mul_le_mul_of_nonneg_left h1 hvnn
      have h3 : (2 : ℚ) ^ (1023 : ℤ) = (2 : ℚ) ^ (1022 : ℤ) * 2 := by
        rw [show (1023 : ℤ) = 1022 + 1 by norm_num, zpow_add₀ (by norm_num : (2 : ℚ) ≠ 0)]
        norm_num
      rw [h3]
      linarith
  obtain ⟨m, e, h1, h2, h3⟩ := hA
  rw [pow_one] at h2 h3
  refine ⟨m, e, h1, ?_, ?_⟩
  · rw [pow_succ, ← mul_assoc]
    exact le_trans (mul_le_mul_of_nonneg_right hlo (by linarith)) h2
  · rw [pow_succ, ← mul_assoc]
    exact le_trans h3 (mul_le_mul_of_nonneg_right hhi (by linarith))

theorem Approx.add (a x : F64) (V v : ℚ) (k : Nat) (ha : Approx a V k) (hx : Approx x v 1)
    (hk1 : 1 ≤ k) (hk : 2 * (k : ℚ) * unitRoundoff ≤ 1)
    (hv0 : 0 ≤ v)
    (hlo : V + v = 0 ∨ (2 : ℚ) ^ (-1021 : ℤ) ≤ V + v) (hhi : V + v < (2 : ℚ) ^ (1022 : ℤ)) :
    Approx (F64.add a x) (V + v) (k + 1) := by
  obtain ⟨ma, ea, rfl, ha1, ha2⟩ := ha
  obtain ⟨mb, eb, rfl, hx1, hx2⟩ := hx
  obtain ⟨N, D, hD, hND, hadd⟩ := F64.add_nonneg_eq ma mb ea eb
  rw [hadd]
  rw [pow_one] at hx1 hx2
  apply Approx.round_step N D hD (V + v) k hlo hhi hk
  · rw [hND, add_mul]
    have h1 : v * (1 - unitRoundoff) ^ k ≤ v * (1 - unitRoundoff) :=
      mul_le_mul_of_nonneg_left (one_sub_pow_le_base k hk1) hv0
    linarith
  · rw [hND, add_mul]
    have h1 : v * (1 + unitRoundoff) ≤ v * (1 + unitRoundoff) ^ k :=
      mul_le_mul_of_nonneg_left (base_le_one_add_pow k hk1) hv0
    linarith

theorem sum_nonneg_of_bounds {α : Type} (g : α → ℚ) (l : List α)
    (h : ∀ a ∈ l, g a = 0 ∨ (2 : ℚ) ^ (-1021 : ℤ) ≤ g a) : 0 ≤ (l.map g).sum := by
  apply List.sum_nonneg
  intro x hx
  obtain ⟨a, ha, rfl⟩ := List.mem_map.1 hx
  rcases h a ha with h1 | h1
  · rw [h1]
  · exact le_trans (by positivity) h1

theorem foldl_add_approx {α : Type} (f : α → F64) (g : α → ℚ) (l : List α) :
    (∀ a ∈ l, Approx (f a) (g a) 1 ∧ (g a = 0 ∨ (2 : ℚ) ^ (-1021 : ℤ) ≤ g a)) →
    ∀ (acc : F64) (V : ℚ) (k : Nat), Approx acc V k → 1 ≤ k →
      (V = 0 ∨ (2 : ℚ) ^ (-1021 : ℤ) ≤ V) →
      V + (l.map g).sum < (2 : ℚ) ^ (1022 : ℤ) →
      2 * ((k + l.length : Nat) : ℚ) * unitRoundoff ≤ 1 →
      Approx (l.foldl (fun sum a => F64.add sum (f a)) acc) (V + (l.map g).sum)
        (k + l.length) := by
  induction l with
  | nil =>
    intro _ acc V k hacc _ _ _ _
    simpa using hacc
  | cons a rest ih =>
    intro h acc V k hacc hk1 hV hsum hk
    have hu := unitRoundoff_pos
    have ha := h a (List.mem_cons_self _ _)
    have hrest : ∀ b ∈ rest, Approx (f b) (g b) 1 ∧ (g b = 0 ∨ (2 : ℚ) ^ (-1021 : ℤ) ≤ g b) :=
      fun b hb => h b (List.mem_cons_of_mem _ hb)
    have hrestnn : 0 ≤ (rest.map g).sum :=
      sum_nonneg_of_bounds g rest (fun b hb => (hrest b hb).2)
    have hpow : (0 : ℚ) < (2 : ℚ) ^ (-1021 : ℤ) := by positivity
    have hVnn : 0 ≤ V := by
      rcases hV with h1 | h1
      · rw [h1]
      · linarith
    have hgnn : 0 ≤ g a := by
      rcases ha.2 with h1 | h1
      · rw [h1]
      · linarith
    simp only [List.map_cons, List.sum_cons, List.length_cons] at hsum hk ⊢
    have hkq : 2 * (k : ℚ) * unitRoundoff ≤ 1 := by
      push_cast at hk
      have : (0 : ℚ) ≤ (rest.length : ℚ) := by positivity
      nlinarith
    have hstep : Approx (F64.add acc (f a)) (V + g a) (k + 1) := by
      apply Approx.add acc (f a) V (g a) k hacc ha.1 hk1 hkq hgnn
      · rcases hV with h1 | h1
        · rcases ha.2 with h2 | h2
          · left; rw [h1, h2]; norm_num
          · right; linarith
        · right; linarith
      · linarith
    have hfinal := ih hrest (F64.add acc (f a)) (V + g a) (k + 1) hstep (by omega)
      (by
        rcases hV with h1 | h1
        · rcases ha.2 with h2 | h2
          · left; rw [h1, h2]; norm_num
          · right; linarith
        · right; linarith)
      (by linarith)
      (by
        have : k + 1 + rest.length = k + (rest.length + 1) := by omega
        rw [this]
        exact hk)
    have e1 : V + (g a + (rest.map g).sum) = V + g a + (rest.map g).sum := by ring
    have e2 : k + (rest.length + 1) = k + 1 + rest.length := by omega
    rw [e1, e2]
    exact hfinal

theorem Approx.div_ofNat (t : F64) (P : ℚ) (k n : Nat) (ht : Approx t P k)
    (hn1 : 1 ≤ n) (hn2 : n < 2 ^ 53)
    (hk : 2 * (k : ℚ) * unitRoundoff ≤ 1)
    (hP : P = 0 ∨ (2 : ℚ) ^ (-900 : ℤ) ≤ P) (hPhi : P < (2 : ℚ) ^ (1022 : ℤ)) :
    Approx (F64.div t (F64.ofNat n)) (P / n) (k + 1) := by
  obtain ⟨mt, et, rfl, ht1, ht2⟩ := ht
  obtain ⟨mn, en, hof, hval, hmn⟩ := F64.ofNat_exact n hn1 hn2
  obtain ⟨N, D, hD, hND, hdiv⟩ := F64.div_nonneg_eq mt mn et en hmn
  rw [hof, hdiv]
  rw [hval] at hND
  have hnq : (1 : ℚ) ≤ n := by exact_mod_cast hn1
  have hnpos : (0 : ℚ) < n := by linarith
  have hn53 : (n : ℚ) < (2 : ℚ) ^ (53 : ℤ) := by
    have : (n : ℚ) < ((2 ^ 53 : Nat) : ℚ) := by exact_mod_cast hn2
    rw [show ((2 : ℚ) ^ (53 : ℤ)) = ((2 ^ 53 : Nat) : ℚ) by norm_num]
    exact this
  have hPnn : 0 ≤ P := by
    rcases hP with h | h
    · rw [h]
    · exact le_trans (by positivity) h
  apply Approx.round_step N D hD (P / n) k _ _ hk
  · rw [hND, div_mul_eq_mul_div]
    exact div_le_div_of_nonneg_right ht1 (le_of_lt hnpos)
  · rw [hND, div_mul_eq_mul_div]
    exact div_le_div_of_nonneg_right ht2 (le_of_lt hnpos)
  · rcases hP with h | h
    · left; rw [h, zero_div]
    · right
      rw [le_div_iff₀ hnpos]
      calc (2 : ℚ) ^ (-1021 : ℤ) * n ≤ (2 : ℚ) ^ (-1021 : ℤ) * (2 : ℚ) ^ (53 : ℤ) :=
            mul_le_mul_of_nonneg_left (le_of_lt hn53) (by positivity)
        _ = (2 : ℚ) ^ (-968 : ℤ) := by
            rw [← zpow_add₀ (by norm_num : (2 : ℚ) ≠ 0)]; norm_num
        _ ≤ (2 : ℚ) ^ (-900 : ℤ) := zpow_le_zpow_right₀ (by norm_num) (by norm_num)
        _ ≤ P := h
  · calc P / n ≤ P := div_le_self hPnn hnq
      _ < (2 : ℚ) ^ (1022 : ℤ) := hPhi

/-! ## Rendering with two decimals -/

theorem toDigitsCore_append (fuel : Nat) :
    ∀ (n : Nat) (ds : List Char),
      Nat.toDigitsCore 10 fuel n ds = Nat.toDigitsCore 10 fuel n [] ++ ds := by
  induction fuel with
  | zero => intro n ds; simp [Nat.toDigitsCore]
  | succ fuel ih =>
    intro n ds
    simp only [Nat.toDigitsCore]
    split
    · simp
    · rw [ih (n / 10) (Nat.digitChar (n % 10) :: ds), ih (n / 10) [Nat.digitChar (n % 10)]]
      simp

theorem toDigitsCore_fuel (f1 : Nat) :
    ∀ (f2 n : Nat) (ds : List Char), n < f1 → n < f2 →
      Nat.toDigitsCore 10 f1 n ds = Nat.toDigitsCore 10 f2 n ds := by
  induction f1 with
  | zero => intro f2 n ds h; omega
  | succ f1 ih =>
    intro f2 n ds h1 h2
    obtain ⟨g, rfl⟩ : ∃ g, f2 = g + 1 := ⟨f2 - 1, by omega⟩
    simp only [Nat.toDigitsCore]
    split
    · rfl
    · rename_i h
      exact ih g (n / 10) _ (by omega) (by omega)

theorem toDigits_of_lt_ten (n : Nat) (h : n < 10) : Nat.toDigits 10 n = [Nat.digitChar n] := by
  have h1 : n / 10 = 0 := by omega
  have h2 : n % 10 = n := by omega
  simp [Nat.toDigits, Nat.toDigitsCore, h1, h2]

theorem toDigits_of_ten_le (n : Nat) (h : 10 ≤ n) :
    Nat.toDigits 10 n = Nat.toDigits 10 (n / 10) ++ [Nat.digitChar (n % 10)] := by
  have h1 : n / 10 ≠ 0 := by omega
  have hl : Nat.toDigits 10 n = Nat.toDigitsCore 10 n (n / 10) [Nat.digitChar (n % 10)] := by
    simp only [Nat.toDigits, Nat.toDigitsCore, if_neg h1]
  have hr : Nat.toDigits 10 (n / 10) = Nat.toDigitsCore 10 (n / 10 + 1) (n / 10) [] := rfl
  rw [hl, hr, toDigitsCore_append,
    toDigitsCore_fuel n (n / 10 + 1) (n / 10) [] (by omega) (by omega)]

theorem toFixed_layout (K : Nat) :
    (([] : List Char) ++
      (if (Nat.toDigits 10 K).length ≤ 2 then
        List.replicate (2 + 1 - (Nat.toDigits 10 K).length) '0' ++ Nat.toDigits 10 K
       else Nat.toDigits 10 K).take
        ((if (Nat.toDigits 10 K).length ≤ 2 then 2 + 1 else (Nat.toDigits 10 K).length) - 2) ++
      ['.'] ++
      (if (Nat.toDigits 10 K).length ≤ 2 then
        List.replicate (2 + 1 - (Nat.toDigits 10 K).length) '0' ++ Nat.toDigits 10 K
       else Nat.toDigits 10 K).drop
        ((if (Nat.toDigits 10 K).length ≤ 2 then 2 + 1 else (Nat.toDigits 10 K).length) - 2)) =
    Nat.toDigits 10 (K / 100) ++ ['.', Nat.digitChar (K / 10 % 10), Nat.digitChar (K % 10)] := by
  have d0 : Nat.digitChar 0 = '0' := rfl
  by_cases h1 : K < 10
  · have e1 : K / 100 = 0 := by omega
    have e2 : K / 10 % 10 = 0 := by omega
    have e3 : K % 10 = K := by omega
    rw [toDigits_of_lt_ten K h1, e1, e2, e3, toDigits_of_lt_ten 0 (by omega)]
    simp [List.replicate, d0]
  · by_cases h2 : K < 100
    · have e1 : K / 100 = 0 := by omega
      have e2 : K / 10 % 10 = K / 10 := by omega
      rw [toDigits_of_ten_le K (by omega), toDigits_of_lt_ten (K / 10) (by omega), e1, e2,
        toDigits_of_lt_ten 0 (by omega)]
      simp [List.replicate, d0]
    · have e1 : K / 10 / 10 = K / 100 := by omega
      have hlen : 1 ≤ (Nat.toDigits 10 (K / 100)).length := by
        by_cases h3 : K / 100 < 10
        · rw [toDigits_of_lt_ten _ h3]; simp
        · rw [toDigits_of_ten_le _ (by omega)]; simp
      rw [toDigits_of_ten_le K (by omega), toDigits_of_ten_le (K / 10) (by omega), e1]
      have hnot : ¬ ((Nat.toDigits 10 (K / 100) ++ [Nat.digitChar (K / 10 % 10)] ++
          [Nat.digitChar (K % 10)]).length ≤ 2) := by
        simp only [List.length_append, List.length_singleton]
        omega
      rw [if_neg hnot, if_neg hnot]
      have hl : (Nat.toDigits 10 (K / 100) ++ [Nat.digitChar (K / 10 % 10)] ++
          [Nat.digitChar (K % 10)]).length - 2 = (Nat.toDigits 10 (K / 100)).length := by
        simp only [List.length_append, List.length_singleton]
        omega
      rw [hl, List.append_assoc (Nat.toDigits 10 (K / 100)), List.take_left, List.drop_left]
      simp

theorem toFixed_two (m : Nat) (e : ℤ) (K : Nat)
    (hlo : (K : ℚ) - 1 / 2 ≤ 100 * ((m : ℚ) * (2 : ℚ) ^ e))
    (hhi : 100 * ((m : ℚ) * (2 : ℚ) ^ e) < (K : ℚ) + 1 / 2)
    (hbig : (m : ℚ) * (2 : ℚ) ^ e < 10 ^ 21) :
    toFixed (.fin false m e) 2 = renderTwoDecimals K := by
  have hden : (0 : ℚ) < ((2 ^ (-e).toNat : Nat) : ℚ) := by positivity
  have hval : ((m * 2 ^ e.toNat : Nat) : ℚ) / ((2 ^ (-e).toNat : Nat) : ℚ) =
      (m : ℚ) * (2 : ℚ) ^ e := nat_ratio_zpow m e
  rw [← hval] at hlo hhi hbig
  rw [div_lt_iff₀ hden] at hbig
  rw [← mul_div_assoc, le_div_iff₀ hden] at hlo
  rw [← mul_div_assoc, div_lt_iff₀ hden] at hhi
  have hnot : ¬ (10 ^ 21 * 2 ^ (-e).toNat ≤ m * 2 ^ e.toNat) := by
    intro hc
    have : ((10 ^ 21 * 2 ^ (-e).toNat : Nat) : ℚ) ≤ ((m * 2 ^ e.toNat : Nat) : ℚ) := by
      exact_mod_cast hc
    push_cast at this hbig
    linarith
  have hn : (2 * (m * 2 ^ e.toNat) * 10 ^ 2 + 2 ^ (-e).toNat) / (2 * 2 ^ (-e).toNat) = K := by
    apply Nat.div_eq_of_lt_le
    · have : ((K * (2 * 2 ^ (-e).toNat) : Nat) : ℚ) ≤
          ((2 * (m * 2 ^ e.toNat) * 10 ^ 2 + 2 ^ (-e).toNat : Nat) : ℚ) := by
        push_cast at hlo ⊢
        linarith
      exact_mod_cast this
    · have : ((2 * (m * 2 ^ e.toNat) * 10 ^ 2 + 2 ^ (-e).toNat : Nat) : ℚ) <
          (((K + 1) * (2 * 2 ^ (-e).toNat) : Nat) : ℚ) := by
        push_cast at hhi ⊢
        linarith
      exact_mod_cast this
  simp only [toFixed, Bool.false_eq_true, false_and, if_false, if_neg hnot, hn, ne_eq,
    OfNat.ofNat_ne_zero, not_false_eq_true, if_true, renderTwoDecimals]
  rw [toFixed_layout K]

/-! ## Reading a price text -/

theorem isDigit_toNat (c : Char) (h : c.isDigit = true) : 48 ≤ c.toNat ∧ c.toNat ≤ 57 := by
  simp only [Char.isDigit, Bool.and_eq_true, decide_eq_true_eq] at h
  exact ⟨h.1, h.2⟩

theorem not_isWhiteSpace_of_isDigit (c : Char) (h : c.isDigit = true) :
    isWhiteSpace c = false := by
  obtain ⟨h1, h2⟩ := isDigit_toNat c h
  simp only [isWhiteSpace]
  simp
  omega

theorem digitsValue_append_singleton (ds : List Char) (c : Char) :
    digitsValue (ds ++ [c]) = 10 * digitsValue ds + (c.toNat - 48) := by
  simp [digitsValue, List.foldl_append]

theorem parseFloat_of_digit_head (t : String) (c : Char) (cs : List Char)
    (ht : t.toList = c :: cs) (h : c.isDigit = true) :
    parseFloat t = parseUnsigned false (c :: cs) := by
  have hw := not_isWhiteSpace_of_isDigit c h
  have hp : c ≠ '+' := by
    intro hc; rw [hc] at h; exact absurd h (by decide)
  have hm : c ≠ '-' := by
    intro hc; rw [hc] at h; exact absurd h (by decide)
  have hdw : List.dropWhile isWhiteSpace t.toList = c :: cs := by
    rw [ht, List.dropWhile_cons, hw]
    rfl
  simp only [parseFloat, hdw]
  split
  · rename_i heq
    exact absurd (List.cons.inj heq).1 hp
  · rename_i heq
    exact absurd (List.cons.inj heq).1 hm
  · rfl

theorem parseUnsigned_eq (cs : List Char) (k : Nat)
    (h : (match cs.dropWhile Char.isDigit with
      | [] => if cs.takeWhile Char.isDigit = [] then none
              else some (100 * digitsValue (cs.takeWhile Char.isDigit))
      | ['.', a] =>
        if cs.takeWhile Char.isDigit ≠ [] ∧ a.isDigit = true then
          some (100 * digitsValue (cs.takeWhile Char.isDigit) + 10 * (a.toNat - 48))
        else none
      | ['.', a, b] =>
        if cs.takeWhile Char.isDigit ≠ [] ∧ a.isDigit = true ∧ b.isDigit = true then
          some (100 * digitsValue (cs.takeWhile Char.isDigit) + 10 * (a.toNat - 48) +
            (b.toNat - 48))
        else none
      | _ => none) = some k) :
    cs.takeWhile Char.isDigit ≠ [] ∧
    ∃ M D : Nat, 1 ≤ D ∧ (M : ℚ) / D = (k : ℚ) / 100 ∧
      parseUnsigned false cs = roundNearestEven false M D := by
  have key : cs.takeWhile Char.isDigit ≠ [] →
      ¬ (cs.take 8 = ['I', 'n', 'f', 'i', 'n', 'i', 't', 'y']) := by
    intro hne htake
    cases cs with
    | nil => simp at hne
    | cons c rest =>
      by_cases hc : c.isDigit = true
      · simp only [List.take_succ_cons, List.cons.injEq] at htake
        rw [htake.1] at hc
        exact absurd hc (by decide)
      · simp [List.takeWhile_cons, hc] at hne
  split at h
  · rename_i heq
    split at h
    · exact absurd h (by simp)
    · rename_i hne
      refine ⟨hne, digitsValue (cs.takeWhile Char.isDigit) * 10 ^ 0, 1, le_refl 1, ?_, ?_⟩
      · simp only [Option.some.injEq] at h
        rw [← h]
        push_cast
        field_simp
      · simp only [parseUnsigned, if_neg (key hne), heq, if_neg hne, parseExponent,
          decimalToF64]
        rfl
  · rename_i a heq
    split at h
    · rename_i hc
      refine ⟨hc.1, digitsValue (cs.takeWhile Char.isDigit ++ [a]), 10 ^ 1, by norm_num, ?_, ?_⟩
      · simp only [Option.some.injEq] at h
        rw [← h, digitsValue_append_singleton]
        push_cast
        field_simp
        ring
      · simp only [parseUnsigned, if_neg (key hc.1), heq, List.takeWhile_cons, hc.2, if_true,
          List.takeWhile_nil, List.dropWhile_cons, List.dropWhile_nil, parseExponent,
          decimalToF64, List.length_singleton]
        simp [hc.1]
    · exact absurd h (by simp)
  · rename_i a b heq
    split at h
    · rename_i hc
      refine ⟨hc.1, digitsValue ((cs.takeWhile Char.isDigit ++ [a]) ++ [b]), 10 ^ 2,
        by norm_num, ?_, ?_⟩
      · simp only [Option.some.injEq] at h
        rw [← h, digitsValue_append_singleton, digitsValue_append_singleton]
        push_cast
        field_simp
        ring
      · simp only [parseUnsigned, if_neg (key hc.1), heq, List.takeWhile_cons, hc.2.1, hc.2.2,
          if_true, List.takeWhile_nil, List.dropWhile_cons, List.dropWhile_nil, parseExponent,
          decimalToF64]
        simp [hc.1]
    · exact absurd h (by simp)
  · exact absurd h (by simp)

theorem parseFloat_approx (t : String) (k : Nat) (h : priceCents t = some k)
    (hk : k < 2 ^ 60) :
    Approx (parseFloat t) ((k : ℚ) / 100) 1 ∧
      ((k : ℚ) / 100 = 0 ∨ (2 : ℚ) ^ (-900 : ℤ) ≤ (k : ℚ) / 100) := by
  simp only [priceCents] at h
  obtain ⟨hne, M, D, hD, hMD, hparse⟩ := parseUnsigned_eq t.toList k h
  have hsmall : (2 : ℚ) ^ (-900 : ℤ) ≤ 1 / 100 := by
    calc (2 : ℚ) ^ (-900 : ℤ) ≤ (2 : ℚ) ^ (-7 : ℤ) :=
          zpow_le_zpow_right₀ (by norm_num) (by norm_num)
      _ ≤ 1 / 100 := by
          rw [zpow_neg]; norm_num
  have hbound : (k : ℚ) / 100 = 0 ∨ (2 : ℚ) ^ (-900 : ℤ) ≤ (k : ℚ) / 100 := by
    rcases Nat.eq_zero_or_pos k with h0 | h0
    · left; rw [h0]; simp
    · right
      have : (1 : ℚ) ≤ k := by exact_mod_cast h0
      linarith
  refine ⟨?_, hbound⟩
  have hhead : parseFloat t = parseUnsigned false t.toList := by
    cases hcs : t.toList with
    | nil => rw [hcs] at hne; simp at hne
    | cons c rest =>
      have hc : c.isDigit = true := by
        by_contra hc
        rw [hcs] at hne
        simp [List.takeWhile_cons, hc] at hne
      exact parseFloat_of_digit_head t c rest hcs hc
  rw [hhead, hparse, ← hMD]
  apply roundNearestEven_approx M D hD
  · rw [hMD]
    rcases hbound with h0 | h0
    · left; exact h0
    · right
      exact le_trans (zpow_le_zpow_right₀ (by norm_num) (by norm_num)) h0
  · rw [hMD]
    have h1 : (k : ℚ) < ((2 ^ 60 : Nat) : ℚ) := by exact_mod_cast hk
    have h2 : ((2 ^ 60 : Nat) : ℚ) = (2 : ℚ) ^ (60 : ℤ) := by norm_num
    have h3 : (2 : ℚ) ^ (60 : ℤ) ≤ (2 : ℚ) ^ (1023 : ℤ) :=
      zpow_le_zpow_right₀ (by norm_num) (by norm_num)
    have h4 : (k : ℚ) / 100 ≤ k := by
      have : (0 : ℚ) ≤ k := by positivity
      linarith
    linarith

/-! ## The average of prices in cents -/

theorem cents_le_sum (c : MenuItem → Nat) (l : List MenuItem) (x : MenuItem) (hx : x ∈ l) :
    c x ≤ (l.map c).sum := by
  induction l with
  | nil => simp at hx
  | cons a rest ih =>
    rcases List.mem_cons.1 hx with h | h
    · subst h; simp
    · have := ih h
      simp only [List.map_cons, List.sum_cons]
      omega

theorem sum_map_div (c : MenuItem → Nat) (l : List MenuItem) :
    (l.map (fun x => ((c x : Nat) : ℚ) / 100)).sum = (((l.map c).sum : Nat) : ℚ) / 100 := by
  induction l with
  | nil => simp
  | cons a rest ih =>
    simp only [List.map_cons, List.sum_cons, ih]
    push_cast
    ring

/-- The arithmetic of the last step: a value within `n + 2` roundings of the
exact mean `C / 100 / n` lies strictly between the two half-cent boundaries
around `K`, when the mean itself is nearer to `K` cents than half a cent. -/
theorem mean_margin (C n K : Nat) (w : ℚ) (hn1 : 1 ≤ n)
    (hsize : (n + 2) * (C + 1) < 2 ^ 51)
    (hK : |(C : ℚ) / (n : ℚ) - (K : ℚ)| < 1 / 2)
    (hlo : (C : ℚ) / 100 / n * (1 - unitRoundoff) ^ (n + 2) ≤ w)
    (hhi : w ≤ (C : ℚ) / 100 / n * (1 + unitRoundoff) ^ (n + 2)) :
    (K : ℚ) - 1 / 2 ≤ 100 * w ∧ 100 * w < (K : ℚ) + 1 / 2 ∧ w < 10 ^ 21 := by
  have hu := unitRoundoff_pos
  have hnq : (1 : ℚ) ≤ n := by exact_mod_cast hn1
  have hnpos : (0 : ℚ) < n := by linarith
  have hCnn : (0 : ℚ) ≤ C := by positivity
  have hsizeq : ((n : ℚ) + 2) * ((C : ℚ) + 1) < 2 ^ 51 := by
    have : (((n + 2) * (C + 1) : Nat) : ℚ) < ((2 ^ 51 : Nat) : ℚ) := by exact_mod_cast hsize
    push_cast at this
    exact this
  have hNC : ((n : ℚ) + 2) * (C : ℚ) < 2 ^ 51 := by nlinarith
  have hN51 : (n : ℚ) + 2 < 2 ^ 51 := by nlinarith
  have hC51 : (C : ℚ) < 2 ^ 51 := by nlinarith
  have hU : unitRoundoff * 2 ^ 53 = 1 := by unfold unitRoundoff; norm_num
  -- the accumulated error, in cents
  have herr : (C : ℚ) * (((n : ℚ) + 2) * unitRoundoff) < 1 / 4 := by
    have h1 : ((n : ℚ) + 2) * (C : ℚ) * (unitRoundoff * 2 ^ 53) < 2 ^ 51 := by
      rw [hU, mul_one]; exact hNC
    have h2 : (C : ℚ) * (((n : ℚ) + 2) * unitRoundoff) * 2 ^ 53 < 2 ^ 51 := by
      calc (C : ℚ) * (((n : ℚ) + 2) * unitRoundoff) * 2 ^ 53
          = ((n : ℚ) + 2) * (C : ℚ) * (unitRoundoff * 2 ^ 53) := by ring
        _ < 2 ^ 51 := h1
    have h3 : (0 : ℚ) < 2 ^ 53 := by positivity
    have h4 : (1 : ℚ) / 4 * 2 ^ 53 = 2 ^ 51 := by norm_num
    rw [← h4] at h2
    exact lt_of_mul_lt_mul_right h2 (le_of_lt h3)
  have hNu : 2 * ((n + 2 : Nat) : ℚ) * unitRoundoff ≤ 1 := by
    push_cast
    have h1 : 2 * ((n : ℚ) + 2) * unitRoundoff * 2 ^ 53 ≤ 1 * 2 ^ 53 := by
      calc 2 * ((n : ℚ) + 2) * unitRoundoff * 2 ^ 53
          = 2 * ((n : ℚ) + 2) * (unitRoundoff * 2 ^ 53) := by ring
        _ = 2 * ((n : ℚ) + 2) := by rw [hU, mul_one]
        _ ≤ 1 * 2 ^ 53 := by linarith
    exact le_of_mul_le_mul_right h1 (by positivity)
  have hlow := one_sub_pow_ge (n + 2)
  have hupp := one_add_pow_le (n + 2) hNu
  push_cast at hlow hupp
  have hmu : (0 : ℚ) ≤ (C : ℚ) / 100 / n := by positivity
  have hlo2 : (C : ℚ) / 100 / n * (1 - ((n : ℚ) + 2) * unitRoundoff) ≤ w :=
    le_trans (mul_le_mul_of_nonneg_left hlow hmu) hlo
  have hhi2 : w ≤ (C : ℚ) / 100 / n * (1 + 2 * ((n : ℚ) + 2) * unitRoundoff) :=
    le_trans hhi (mul_le_mul_of_nonneg_left hupp hmu)
  -- the distance of the mean from the boundaries
  have hKint : (2 * (C : ℤ) - 2 * (K : ℤ) * (n : ℤ) ≤ (n : ℤ) - 1) ∧
      (-((n : ℤ) - 1) ≤ 2 * (C : ℤ) - 2 * (K : ℤ) * (n : ℤ)) := by
    rw [abs_lt] at hK
    obtain ⟨h1, h2⟩ := hK
    rw [lt_sub_iff_add_lt, lt_div_iff₀ hnpos] at h1
    rw [sub_lt_iff_lt_add, div_lt_iff₀ hnpos] at h2
    have h3 : ((2 * (C : ℤ) - 2 * (K : ℤ) * (n : ℤ) : ℤ) : ℚ) < ((n : ℤ) : ℚ) := by
      push_cast; linarith
    have h4 : ((-(n : ℤ) : ℤ) : ℚ) < ((2 * (C : ℤ) - 2 * (K : ℤ) * (n : ℤ) : ℤ) : ℚ) := by
      push_cast; linarith
    have h5 : 2 * (C : ℤ) - 2 * (K : ℤ) * (n : ℤ) < (n : ℤ) := by exact_mod_cast h3
    have h6 : -(n : ℤ) < 2 * (C : ℤ) - 2 * (K : ℤ) * (n : ℤ) := by exact_mod_cast h4
    omega
  have hK1 : 2 * (C : ℚ) - 2 * (K : ℚ) * (n : ℚ) ≤ (n : ℚ) - 1 := by exact_mod_cast hKint.1
  have hK2 : -((n : ℚ) - 1) ≤ 2 * (C : ℚ) - 2 * (K : ℚ) * (n : ℚ) := by exact_mod_cast hKint.2
  have hmean_lo : (K : ℚ) - 1 / 2 + 1 / 2 / n ≤ (C : ℚ) / n := by
    rw [le_div_iff₀ hnpos, add_mul, div_mul_cancel₀ _ (ne_of_gt hnpos)]
    linarith
  have hmean_hi : (C : ℚ) / n ≤ (K : ℚ) + 1 / 2 - 1 / 2 / n := by
    rw [div_le_iff₀ hnpos, sub_mul, div_mul_cancel₀ _ (ne_of_gt hnpos)]
    linarith
  have hlo3 : (C : ℚ) / n - (C : ℚ) * (((n : ℚ) + 2) * unitRoundoff) / n ≤ 100 * w := by
    have h := mul_le_mul_of_nonneg_left hlo2 (by norm_num : (0 : ℚ) ≤ 100)
    have e1 : 100 * ((C : ℚ) / 100 / n * (1 - ((n : ℚ) + 2) * unitRoundoff)) =
        (C : ℚ) / n - (C : ℚ) * (((n : ℚ) + 2) * unitRoundoff) / n := by
      field_simp
      ring
    rw [e1] at h
    exact h
  have hhi3 : 100 * w ≤ (C : ℚ) / n + 2 * ((C : ℚ) * (((n : ℚ) + 2) * unitRoundoff)) / n := by
    have h := mul_le_mul_of_nonneg_left hhi2 (by norm_num : (0 : ℚ) ≤ 100)
    have e1 : 100 * ((C : ℚ) / 100 / n * (1 + 2 * ((n : ℚ) + 2) * unitRoundoff)) =
        (C : ℚ) / n + 2 * ((C : ℚ) * (((n : ℚ) + 2) * unitRoundoff)) / n := by
      field_simp
      ring
    rw [e1] at h
    exact h
  have herr_lo : (C : ℚ) * (((n : ℚ) + 2) * unitRoundoff) / n ≤ 1 / 2 / n :=
    div_le_div_of_nonneg_right (by linarith) (le_of_lt hnpos)
  have herr_hi : 2 * ((C : ℚ) * (((n : ℚ) + 2) * unitRoundoff)) / n < 1 / 2 / n :=
    div_lt_div_of_pos_right (by linarith) hnpos
  refine ⟨by linarith, by linarith, ?_⟩
  have h1 : w ≤ (C : ℚ) / 100 / n * 2 := by
    refine le_trans hhi2 (mul_le_mul_of_nonneg_left ?_ hmu)
    push_cast at hNu
    linarith
  have h2 : (C : ℚ) / 100 / n ≤ (C : ℚ) := by
    rw [div_div]
    exact div_le_self hCnn (by linarith)
  have h4 : (2 : ℚ) ^ 51 * 2 ≤ 10 ^ 21 := by norm_num
  linarith

theorem average_core (items : List MenuItem) (K : Nat) (hne : items ≠ [])
    (hvalid : ∀ x ∈ items, (priceCents x.price).isSome = true)
    (hsize : (items.length + 2) *
      ((items.map (fun x => (priceCents x.price).getD 0)).sum + 1) < 2 ^ 51)
    (hK : |(((items.map (fun x => (priceCents x.price).getD 0)).sum : Nat) : ℚ) /
      (items.length : ℚ) - (K : ℚ)| < 1 / 2) :
    toFixed (F64.div
      (items.foldl (fun sum item => F64.add sum (parseFloat item.price)) (F64.ofNat 0))
      (F64.ofNat items.length)) 2 = renderTwoDecimals K := by
  have hu := unitRoundoff_pos
  have hn1 : 1 ≤ items.length := by
    cases items with
    | nil => exact absurd rfl hne
    | cons a rest => simp
  -- sizes
  have hC1 : 1 ≤ (items.map (fun x => (priceCents x.price).getD 0)).sum + 1 := by omega
  have hNlt : items.length + 2 < 2 ^ 51 :=
    lt_of_le_of_lt (Nat.le_mul_of_pos_right _ (by omega)) hsize
  have hClt : (items.map (fun x => (priceCents x.price).getD 0)).sum + 1 < 2 ^ 51 :=
    lt_of_le_of_lt (Nat.le_mul_of_pos_left _ (by omega)) hsize
  generalize hCdef : (items.map (fun x => (priceCents x.price).getD 0)).sum = C at *
  generalize hndef : items.length = n at *
  have hnq : (1 : ℚ) ≤ n := by exact_mod_cast hn1
  have hnpos : (0 : ℚ) < n := by linarith
  have hCnn : (0 : ℚ) ≤ C := by positivity
  have hsizeq : ((n : ℚ) + 2) * ((C : ℚ) + 1) < 2 ^ 51 := by
    have : (((n + 2) * (C + 1) : Nat) : ℚ) < ((2 ^ 51 : Nat) : ℚ) := by exact_mod_cast hsize
    push_cast at this
    exact this
  have hNu : 2 * ((n + 2 : Nat) : ℚ) * unitRoundoff ≤ 1 := by
    have : ((n + 2 : Nat) : ℚ) < ((2 ^ 51 : Nat) : ℚ) := by exact_mod_cast hNlt
    push_cast at this ⊢
    unfold unitRoundoff
    rw [mul_one_div, div_le_one (by positivity)]
    linarith
  -- each price is read within one rounding
  have hitems : ∀ x ∈ items,
      Approx (parseFloat x.price) ((((priceCents x.price).getD 0 : Nat) : ℚ) / 100) 1 ∧
      ((((priceCents x.price).getD 0 : Nat) : ℚ) / 100 = 0 ∨
        (2 : ℚ) ^ (-1021 : ℤ) ≤ (((priceCents x.price).getD 0 : Nat) : ℚ) / 100) := by
    intro x hx
    obtain ⟨k, hk⟩ := Option.isSome_iff_exists.1 (hvalid x hx)
    have hle := cents_le_sum (fun x => (priceCents x.price).getD 0) items x hx
    simp only [hCdef, hk, Option.getD_some] at hle
    obtain ⟨h1, h2⟩ := parseFloat_approx x.price k hk
      (lt_of_le_of_lt hle (lt_trans (by omega) (lt_trans hClt (by norm_num))))
    rw [hk, Option.getD_some]
    refine ⟨h1, ?_⟩
    rcases h2 with h2 | h2
    · left; exact h2
    · right; exact le_trans (zpow_le_zpow_right₀ (by norm_num) (by norm_num)) h2
  -- the running total
  have hzero : Approx (F64.ofNat 0) 0 1 :=
    ⟨0, 0, roundNearestEven_zero _ _, by simp, by simp⟩
  have hPeq : (0 : ℚ) + (items.map (fun x =>
      (((priceCents x.price).getD 0 : Nat) : ℚ) / 100)).sum = (C : ℚ) / 100 := by
    rw [zero_add, sum_map_div (fun x => (priceCents x.price).getD 0) items, hCdef]
  have hPhi : (C : ℚ) / 100 < (2 : ℚ) ^ (1022 : ℤ) := by
    have h1 : (C : ℚ) < 2 ^ 51 := by
      have : ((C + 1 : Nat) : ℚ) < ((2 ^ 51 : Nat) : ℚ) := by exact_mod_cast hClt
      push_cast at this
      linarith
    have h2 : ((2 : ℚ) ^ 51) ≤ (2 : ℚ) ^ (1022 : ℤ) := by
      rw [← zpow_natCast]
      exact zpow_le_zpow_right₀ (by norm_num) (by norm_num)
    linarith
  have htotal := foldl_add_approx (fun x : MenuItem => parseFloat x.price)
    (fun x => (((priceCents x.price).getD 0 : Nat) : ℚ) / 100) items hitems
    (F64.ofNat 0) 0 1 hzero (le_refl 1) (Or.inl rfl)
    (by rw [hPeq]; exact hPhi)
    (by
      rw [hndef]
      have : ((1 + n : Nat) : ℚ) ≤ ((n + 2 : Nat) : ℚ) := by exact_mod_cast (by omega)
      nlinarith)
  rw [hPeq, hndef] at htotal
  -- the quotient
  have hP : (C : ℚ) / 100 = 0 ∨ (2 : ℚ) ^ (-900 : ℤ) ≤ (C : ℚ) / 100 := by
    rcases Nat.eq_zero_or_pos C with h0 | h0
    · left; rw [h0]; simp
    · right
      have h1 : (1 : ℚ) ≤ C := by exact_mod_cast h0
      have h2 : (2 : ℚ) ^ (-900 : ℤ) ≤ 1 / 100 := by
        calc (2 : ℚ) ^ (-900 : ℤ) ≤ (2 : ℚ) ^ (-7 : ℤ) :=
              zpow_le_zpow_right₀ (by norm_num) (by norm_num)
          _ ≤ 1 / 100 := by rw [zpow_neg]; norm_num
      linarith
  have hquot := Approx.div_ofNat _ ((C : ℚ) / 100) (1 + n) n htotal hn1
    (lt_trans (by omega) (lt_trans hNlt (by norm_num)))
    (by
      have : ((1 + n : Nat) : ℚ) ≤ ((n + 2 : Nat) : ℚ) := by exact_mod_cast (by omega)
      nlinarith)
    hP hPhi
  obtain ⟨m, e, hq, hlo, hhi⟩ := hquot
  rw [hq]
  have hk2 : 1 + n + 1 = n + 2 := by omega
  rw [hk2] at hlo hhi
  obtain ⟨h1, h2, h3⟩ := mean_margin C n K ((m : ℚ) * (2 : ℚ) ^ e) hn1 hsize hK hlo hhi
  exact toFixed_two m e K h1 h2 h3

/-- C1, as amended. When at least one item has course `c`, every such item has
a price text that is a decimal with at most two fraction digits, the number `n`
of these items and their total `T` in cents satisfy `(n + 2) * (T + 1) < 2^51`,
and `K` is the whole number of cents nearest to the exact mean `T / n`, nearer
than half a cent, `calculateAveragePrice` returns the amount of `K` cents
rendered with exactly two decimals. -/
theorem calculateAveragePrice_mean (menuItems : List MenuItem) (c : String) (K : Nat)
    (hne : ∃ x ∈ menuItems, x.course = c)
    (hvalid : ∀ x ∈ menuItems, x.course = c → (priceCents x.price).isSome = true)
    (hsize : ((itemsOfCourse menuItems c).length + 2) * (totalCents menuItems c + 1) < 2 ^ 51)
    (hK : |((totalCents menuItems c : Nat) : ℚ) / ((itemsOfCourse menuItems c).length : ℚ) -
      (K : ℚ)| < 1 / 2) :
    calculateAveragePrice menuItems c = .str (renderTwoDecimals K) := by
  obtain ⟨x, hx, hxc⟩ := hne
  have hmem : x ∈ itemsOfCourse menuItems c := by
    simp [itemsOfCourse, List.mem_filter, hx, hxc]
  have hne2 : itemsOfCourse menuItems c ≠ [] := List.ne_nil_of_mem hmem
  have hlen : (itemsOfCourse menuItems c).length ≠ 0 := by
    intro h0
    exact hne2 (List.length_eq_zero.1 h0)
  have hvalid2 : ∀ y ∈ itemsOfCourse menuItems c, (priceCents y.price).isSome = true := by
    intro y hy
    simp only [itemsOfCourse, List.mem_filter, beq_iff_eq] at hy
    exact hvalid y hy.1 hy.2
  have hcore := average_core (itemsOfCourse menuItems c) K hne2 hvalid2 hsize hK
  simp only [itemsOfCourse] at hlen hcore
  simp only [calculateAveragePrice, calculateAveragePriceTraced]
  rw [if_pos hlen]
  exact congrArg JSValue.str hcore

theorem calculateAveragePrice_mean_witness :
    ((∃ x ∈ [(⟨"0.25", "Steak", "Rare", "Mains", "10.00"⟩ : MenuItem),
              ⟨"0.75", "Stew", "Slow", "Mains", "20.00"⟩], x.course = "Mains") ∧
      (∀ x ∈ [(⟨"0.25", "Steak", "Rare", "Mains", "10.00"⟩ : MenuItem),
              ⟨"0.75", "Stew", "Slow", "Mains", "20.00"⟩],
        x.course = "Mains" → (priceCents x.price).isSome = true) ∧
      totalCents [⟨"0.25", "Steak", "Rare", "Mains", "10.00"⟩,
        ⟨"0.75", "Stew", "Slow", "Mains", "20.00"⟩] "Mains" = 3000 ∧
      (itemsOfCourse [⟨"0.25", "Steak", "Rare", "Mains", "10.00"⟩,
        ⟨"0.75", "Stew", "Slow", "Mains", "20.00"⟩] "Mains").length = 2) ∧
    calculateAveragePrice [⟨"0.25", "Steak", "Rare", "Mains", "10.00"⟩,
        ⟨"0.75", "Stew", "Slow", "Mains", "20.00"⟩] "Mains" = .str (renderTwoDecimals 1500) ∧
    renderTwoDecimals 1500 = "15.00" :=
  ⟨by decide,
   calculateAveragePrice_mean
     [⟨"0.25", "Steak", "Rare", "Mains", "10.00"⟩, ⟨"0.75", "Stew", "Slow", "Mains", "20.00"⟩]
     "Mains" 1500 (by decide) (by decide) (by decide)
     (by
       rw [show totalCents [⟨"0.25", "Steak", "Rare", "Mains", "10.00"⟩,
             ⟨"0.75", "Stew", "Slow", "Mains", "20.00"⟩] "Mains" = 3000 from by decide,
           show (itemsOfCourse [⟨"0.25", "Steak", "Rare", "Mains", "10.00"⟩,
             ⟨"0.75", "Stew", "Slow", "Mains", "20.00"⟩] "Mains").length = 2 from by decide]
       norm_num),
   by decide⟩

/-- C1, counterexample. Two Starters priced "0.01" and "0.02": both texts are
valid decimals, the exact mean is 1.5 cents and the mean of the two parsed
Numbers lies strictly between 0.015 and 0.025, so the mean rounded to two
decimals is 0.02; `calculateAveragePrice` returns "0.01". -/
theorem calculateAveragePrice_halfway :
    calculateAveragePrice [⟨"0.25", "Olives", "Green", "Starters", "0.01"⟩,
        ⟨"0.75", "Bread", "Fresh", "Starters", "0.02"⟩] "Starters" = .str "0.01" ∧
    priceCents "0.01" = some 1 ∧ priceCents "0.02" = some 2 ∧
    totalCents [⟨"0.25", "Olives", "Green", "Starters", "0.01"⟩,
        ⟨"0.75", "Bread", "Fresh", "Starters", "0.02"⟩] "Starters" = 3 ∧
    (itemsOfCourse [⟨"0.25", "Olives", "Green", "Starters", "0.01"⟩,
        ⟨"0.75", "Bread", "Fresh", "Starters", "0.02"⟩] "Starters").length = 2 ∧
    (15 : ℚ) / 1000 <
      (F64.toRat (parseFloat "0.01") + F64.toRat (parseFloat "0.02")) / 2 ∧
    (F64.toRat (parseFloat "0.01") + F64.toRat (parseFloat "0.02")) / 2 < (25 : ℚ) / 1000 ∧
    renderTwoDecimals 2 = "0.02" ∧
    calculateAveragePrice [⟨"0.25", "Olives", "Green", "Starters", "0.01"⟩,
        ⟨"0.75", "Bread", "Fresh", "Starters", "0.02"⟩] "Starters" ≠
      .str (renderTwoDecimals 2) := by
  have h1 : parseFloat "0.01" = .fin false 5764607523034235 (-59) := by decide
  have h2 : parseFloat "0.02" = .fin false 5764607523034235 (-58) := by decide
  refine ⟨by decide, by decide, by decide, by decide, by decide, ?_, ?_, by decide, by decide⟩
  · rw [h1, h2]
    simp only [F64.toRat]
    norm_num
  · rw [h1, h2]
    simp only [F64.toRat]
    norm_num

end ChefsMenu
